/-
Verification of the sensorbee streaming-engine core against its
natural-language specification.

The Go sources are shallowly embedded:
 * `Core` models the static topology builder (`defaultStaticTopologyBuilder`,
   `defaultBoxDeclarer`, `defaultSinkDeclarer`, `hasCycle`, `detectCycle`,
   `Build`) from core/static_topology_builder (src/unnamed/part_000).
 * `Bql` models the `bqlBox` operator (bql/bql_box.go) as an explicit state
   machine, and `TopologyBuilder.AddStmt` (bql/topology_builder.go) over an
   abstract dynamic topology.

Go maps from names are represented by lists of names (iteration order made
explicit); Go's recursion is represented with explicit fuel; Go interface
calls that can fail or return data (execution plans, writers, random
numbers) are represented by oracle inputs.
-/
import Mathlib

namespace Core

/-- An edge of the dataflow graph, mirroring `dataflowEdge` in the Go source:
`From` is a source or box name, `To` a box or sink name, `InputName` the
logical input label. -/
structure DataflowEdge where
  From : String
  To : String
  InputName : String
deriving DecidableEq, Repr

/-- The result of a box's `InputConstraints()` call: either an error, or a
nil-constraint (nil `InputConstraints` or nil `Schema`), or a schema map
represented by its list of declared label keys. -/
inductive BoxConstraints where
  | err
  | nilSchema
  | schema (keys : List String)
deriving DecidableEq, Repr

/-- Builder-time errors, matching the `fmt.Errorf` sites of the Go source. -/
inductive BuilderError where
  | alreadyBuilt
  | nameTaken (name : String)
  | unknownRef (name : String)
  | constraintsErr
  | labelRejected (label : String)
  | duplicateEdge (boxName refName : String)
  | noSources
  | cycleDetected (path : List String)
deriving DecidableEq, Repr

/-- State of `defaultStaticTopologyBuilder`: the `sources`, `boxes` and
`sinks` maps are represented by lists of their keys (with the box's
`InputConstraints` behaviour attached), `Edges` and `builtFlag` as in Go. -/
structure Builder where
  sources : List String
  boxes : List (String × BoxConstraints)
  sinks : List String
  Edges : List DataflowEdge
  builtFlag : Bool
deriving DecidableEq, Repr

/-- `NewDefaultStaticTopologyBuilder`: everything empty, not yet built. -/
def newBuilder : Builder :=
  { sources := [], boxes := [], sinks := [], Edges := [], builtFlag := false }

/-- `checkName`: a name is free iff no source, box or sink uses it. -/
def Builder.nameExists (tb : Builder) (name : String) : Bool :=
  tb.sources.contains name || (tb.boxes.map Prod.fst).contains name ||
    tb.sinks.contains name

/-- `IsValidOutputReference`: the name refers to an existing source or box. -/
def Builder.IsValidOutputReference (tb : Builder) (name : String) : Bool :=
  tb.sources.contains name || (tb.boxes.map Prod.fst).contains name

/-- `defaultSourceDeclarer` carries only a possible error. -/
structure SourceDeclarer where
  err : Option BuilderError
deriving DecidableEq, Repr

/-- `defaultBoxDeclarer`: the builder it mutates (carried functionally),
the box name, the box's input-constraints behaviour, and the sticky error. -/
structure BoxDeclarer where
  tb : Builder
  name : String
  box : BoxConstraints
  err : Option BuilderError
deriving DecidableEq, Repr

/-- `defaultSinkDeclarer`. -/
structure SinkDeclarer where
  tb : Builder
  name : String
  err : Option BuilderError
deriving DecidableEq, Repr

/-- `AddSource`: rejects when frozen or when the name is taken, otherwise
records the source. Returns the updated builder and the declarer. -/
def Builder.AddSource (tb : Builder) (name : String) : Builder × SourceDeclarer :=
  if tb.builtFlag then (tb, ⟨some .alreadyBuilt⟩)
  else if tb.nameExists name then (tb, ⟨some (.nameTaken name)⟩)
  else ({ tb with sources := tb.sources ++ [name] }, ⟨none⟩)

/-- `AddBox`. -/
def Builder.AddBox (tb : Builder) (name : String) (box : BoxConstraints) :
    Builder × BoxDeclarer :=
  if tb.builtFlag then (tb, ⟨tb, name, box, some .alreadyBuilt⟩)
  else if tb.nameExists name then (tb, ⟨tb, name, box, some (.nameTaken name)⟩)
  else
    let tb' := { tb with boxes := tb.boxes ++ [(name, box)] }
    (tb', ⟨tb', name, box, none⟩)

/-- `AddSink`. -/
def Builder.AddSink (tb : Builder) (name : String) : Builder × SinkDeclarer :=
  if tb.builtFlag then (tb, ⟨tb, name, some .alreadyBuilt⟩)
  else if tb.nameExists name then (tb, ⟨tb, name, some (.nameTaken name)⟩)
  else
    let tb' := { tb with sinks := tb.sinks ++ [name] }
    (tb', ⟨tb', name, none⟩)

/-- The duplicate-edge scan exactly as written in the Go source: the loop
body `edgeAlreadyExists = edge == e; break` runs at most once, so only the
first element of the edge list is ever compared. -/
def edgeAlreadyExistsScan (edge : DataflowEdge) : List DataflowEdge → Bool
  | [] => false
  | e :: _ => edge == e

/-- The input-constraints admissibility test of `NamedInput`: `none` means
constraints errored; `some true` that the label is acceptable. -/
def constraintsAllow (box : BoxConstraints) (inputName : String) : Option Bool :=
  match box with
  | .err => none
  | .nilSchema => some true
  | .schema keys => some (keys.contains inputName || keys.contains "*")

/-- `defaultBoxDeclarer.NamedInput`: sticky error, unknown-reference check,
input-constraints check, the (broken) duplicate-edge scan, then append. -/
def BoxDeclarer.NamedInput (bd : BoxDeclarer) (refname inputName : String) :
    BoxDeclarer :=
  if bd.err.isSome then bd
  else if !bd.tb.IsValidOutputReference refname then
    { bd with err := some (.unknownRef refname) }
  else
    match constraintsAllow bd.box inputName with
    | none => { bd with err := some .constraintsErr }
    | some false => { bd with err := some (.labelRejected inputName) }
    | some true =>
      let edge : DataflowEdge := ⟨refname, bd.name, inputName⟩
      if edgeAlreadyExistsScan edge bd.tb.Edges then
        { bd with err := some (.duplicateEdge bd.name refname) }
      else
        { bd with tb := { bd.tb with Edges := bd.tb.Edges ++ [edge] } }

/-- `defaultBoxDeclarer.Input` delegates to `NamedInput` with label `"*"`. -/
def BoxDeclarer.Input (bd : BoxDeclarer) (refname : String) : BoxDeclarer :=
  bd.NamedInput refname "*"

/-- `defaultSinkDeclarer.Input`: sticky error, unknown-reference check, the
same broken duplicate-edge scan, then append with the reserved label
`"output"`. -/
def SinkDeclarer.Input (sd : SinkDeclarer) (refname : String) : SinkDeclarer :=
  if sd.err.isSome then sd
  else if !sd.tb.IsValidOutputReference refname then
    { sd with err := some (.unknownRef refname) }
  else
    let edge : DataflowEdge := ⟨refname, sd.name, "output"⟩
    if edgeAlreadyExistsScan edge sd.tb.Edges then
      { sd with err := some (.duplicateEdge sd.name refname) }
    else
      { sd with tb := { sd.tb with Edges := sd.tb.Edges ++ [edge] } }

/-- The adjacency map of `hasCycle`: built from the edge list, keeping the
per-key order in which Go appends `e.To` to `adj[e.From]`. -/
def Builder.adjOf (tb : Builder) (n : String) : List String :=
  (tb.Edges.filter (fun e => e.From == n)).map DataflowEdge.To

/-- The `visited` map of `detectCycle`: value 1 (visiting) is membership in
`gray`, value 2 (visited) is membership in `black`, 0 is absence from both. -/
structure Visit where
  gray : List String
  black : List String
deriving DecidableEq, Repr

mutual

/-- `detectCycle`, with explicit fuel standing for Go's recursion depth.
Returns the updated visited map and the (reversed) cycle path, `none` for
Go's nil slice. -/
def detectCycle (adj : String → List String) :
    Nat → String → Visit → Visit × Option (List String)
  | 0, _, v => (v, none)
  | fuel + 1, node, v =>
    if node ∈ v.gray then (v, some [node])
    else if node ∈ v.black then (v, none)
    else
      let v1 : Visit := { v with gray := node :: v.gray }
      match detectCycleLoop adj fuel node (adj node) v1 with
      | (v2, some path) => (v2, some path)
      | (v2, none) => ({ gray := v2.gray.erase node, black := node :: v2.black }, none)

/-- The `for _, n := range adj[node]` loop body of `detectCycle`: on the
first child returning a non-nil path, either pass a closed path through
unchanged or append the current node; otherwise continue with the updated
visited map. -/
def detectCycleLoop (adj : String → List String) :
    Nat → String → List String → Visit → Visit × Option (List String)
  | _, _, [], v => (v, none)
  | fuel, node, c :: rest, v =>
    match detectCycle adj fuel c v with
    | (v', some path) =>
      if 1 < path.length ∧ path.head? = path.getLast? then (v', some path)
      else (v', some (path ++ [node]))
    | (v', none) => detectCycleLoop adj fuel node rest v'

end

/-- All node names occurring in the builder; used only to size the fuel. -/
def Builder.nodeUniverse (tb : Builder) : List String :=
  tb.sources ++ tb.Edges.map DataflowEdge.From ++ tb.Edges.map DataflowEdge.To

/-- The `for s := range tb.sources` loop of `hasCycle`, threading the shared
visited map; a non-empty path is reversed (Go reverses it in place) and
returned. -/
def hasCycleLoop (adj : String → List String) (fuel : Nat) :
    List String → Visit → Option (List String)
  | [], _ => none
  | s :: rest, v =>
    match detectCycle adj fuel s v with
    | (_, some path) => some path.reverse
    | (v', none) => hasCycleLoop adj fuel rest v'

/-- `hasCycle`: DFS from each source over the adjacency of the edge list. -/
def Builder.hasCycle (tb : Builder) : Bool × List String :=
  match hasCycleLoop tb.adjOf (tb.nodeUniverse.length + 1) tb.sources ⟨[], []⟩ with
  | some path => (true, path)
  | none => (false, [])

/-- `Build`: reject when frozen, with no sources, or when `hasCycle`
succeeds; otherwise freeze the builder (the runtime wiring of channels and
connectors that `Build` then performs carries no further graph content and
is not needed by the claims). -/
def Builder.Build (tb : Builder) : Except BuilderError Builder :=
  if tb.builtFlag then .error .alreadyBuilt
  else if tb.sources.length = 0 then .error .noSources
  else
    match tb.hasCycle with
    | (true, path) => .error (.cycleDetected path)
    | (false, _) => .ok { tb with builtFlag := true }

/-- The edge relation of the builder: there is an edge from `a` to `b`
under some label. -/
def edgeRel (tb : Builder) (a b : String) : Prop :=
  ∃ e ∈ tb.Edges, e.From = a ∧ e.To = b

/-- A node is marked once the DFS has seen it (visiting or visited). -/
def Visit.marked (v : Visit) (x : String) : Prop :=
  x ∈ v.gray ∨ x ∈ v.black

/-- The visiting stack never contains finished nodes. -/
def Visit.grayFresh (v : Visit) : Prop :=
  ∀ x ∈ v.gray, x ∉ v.black

/-- The finished set is closed under successors. -/
def blackClosed (adj : String → List String) (v : Visit) : Prop :=
  ∀ m ∈ v.black, ∀ c ∈ adj m, c ∈ v.black

/-- No finished node lies on a cycle of the adjacency relation. -/
def blackAcyclic (adj : String → List String) (v : Visit) : Prop :=
  ∀ m ∈ v.black, ¬ Relation.TransGen (fun a b => b ∈ adj a) m m

/-- The number of universe nodes the DFS has not yet marked; it bounds the
remaining recursion depth. -/
def unmarkedCount (U : Finset String) (v : Visit) : Nat :=
  (U.filter (fun x => ¬ x ∈ v.gray ∧ ¬ x ∈ v.black)).card

/-- Folding a sequence of `NamedInput` calls over a box declarer. -/
def BoxDeclarer.runInputs (bd : BoxDeclarer) (ops : List (String × String)) :
    BoxDeclarer :=
  ops.foldl (fun d p => d.NamedInput p.1 p.2) bd

/-- Folding a sequence of `Input` calls over a sink declarer. -/
def SinkDeclarer.runInputs (sd : SinkDeclarer) (ops : List String) : SinkDeclarer :=
  ops.foldl (fun d r => d.Input r) sd

end Core

namespace Bql

/-- A `core.Tuple` as far as `bqlBox.Process` manipulates it: the payload,
the timestamps and batch id inherited from the input tuple, and the trace
(copied — the same list value whether or not Go's conditional copy runs).
Payload, times and trace events are abstract (`Nat`). -/
structure Tuple where
  Data : Nat
  Timestamp : Nat
  ProcTimestamp : Nat
  BatchID : Nat
  Trace : List Nat
deriving DecidableEq, Repr

/-- `parser.EmitterSamplingType`. -/
inductive EmitterSamplingType where
  | unspecified
  | countBased
  | randomized
  | timeBased
deriving DecidableEq, Repr

/-- The mutable state of a `bqlBox` (bql/bql_box.go). The execution plan and
function registry are external and represented by oracles on each `Process`
call; `lastWriter` keeps the identity (an abstract `Nat`) of the writer
passed to `Process`; `removeMe` records whether the self-detach callback is
still non-nil. -/
structure BqlBox where
  emitterLimit : Int
  emitterSampling : Int
  emitterSamplingType : EmitterSamplingType
  genCount : Int
  emitCount : Int
  lastTuple : Option Tuple
  lastWriter : Option Nat
  stopped : Bool
  removeMe : Bool
deriving DecidableEq, Repr

/-- Oracle data for one result row computed by the execution plan during a
`Process` call: the produced payload, the outcome of `rand.Int63n(100)`
(consulted only under randomized sampling), and whether `s.Write` succeeds
(consulted only when the row is written). -/
structure RowOracle where
  data : Nat
  rand : Int
  writeOk : Bool
deriving DecidableEq, Repr

/-- Oracle data for one `Process` call: the input tuple, the writer
identity, whether `execPlan.Process` fails, and the result rows. -/
structure ProcessInput where
  t : Tuple
  writer : Nat
  planErr : Bool
  rows : List RowOracle
deriving DecidableEq, Repr

/-- The tuple synthesized for a result row: payload from the row, times,
batch id and trace inherited from the input tuple. -/
def mkResultTuple (t : Tuple) (data : Nat) : Tuple :=
  { Data := data, Timestamp := t.Timestamp, ProcTimestamp := t.ProcTimestamp,
    BatchID := t.BatchID, Trace := t.Trace }

/-- Result of the per-row loop of `Process`: the updated box, the tuples
handed to `s.Write` that succeeded, the number of `s.Write` calls, and
whether the loop aborted with a write error (Go's early `return err`, which
skips the limit/removeMe epilogue). -/
structure RowsOut where
  box : BqlBox
  written : List Tuple
  attempts : Nat
  aborted : Bool
deriving DecidableEq, Repr

/-- The per-row `for _, data := range resultData` loop of `Process`.
Time-based sampling stores the tuple and writer and `continue`s; count-based
sampling consults and then increments `genCount`; a written row increments
`emitCount`; the loop breaks once a non-negative limit is reached. -/
def processRows (t : Tuple) (w : Nat) (b : BqlBox) :
    List RowOracle → RowsOut
  | [] => ⟨b, [], 0, false⟩
  | row :: rest =>
    let tup := mkResultTuple t row.data
    if b.emitterSamplingType = .timeBased then
      processRows t w { b with lastTuple := some tup, lastWriter := some w } rest
    else
      let shouldWrite : Bool :=
        match b.emitterSamplingType with
        | .countBased => b.genCount % b.emitterSampling == 0
        | .randomized => decide (row.rand < b.emitterSampling)
        | _ => true
      let b1 : BqlBox :=
        { b with genCount := if b.emitterSamplingType = .countBased then
            b.genCount + 1 else b.genCount }
      if shouldWrite then
        if row.writeOk then
          let b2 := { b1 with emitCount := b1.emitCount + 1 }
          if 0 ≤ b2.emitterLimit ∧ b2.emitterLimit ≤ b2.emitCount then
            ⟨b2, [tup], 1, false⟩
          else
            let r := processRows t w b2 rest
            ⟨r.box, tup :: r.written, r.attempts + 1, r.aborted⟩
        else ⟨b1, [], 1, true⟩
      else
        if 0 ≤ b1.emitterLimit ∧ b1.emitterLimit ≤ b1.emitCount then
          ⟨b1, [], 0, false⟩
        else processRows t w b1 rest

/-- The accumulated effect of the time-based branch of the row loop on the
box: each generated row overwrites the pending tuple and the writer. -/
def tbStore (t : Tuple) (w : Nat) (b : BqlBox) (rows : List RowOracle) : BqlBox :=
  rows.foldl (fun bb row =>
    { bb with lastTuple := some (mkResultTuple t row.data), lastWriter := some w }) b

/-- Observable output of one `Process` call: successfully written tuples,
number of `s.Write` calls, whether `removeMe` was invoked, and whether
`Process` returned an error. -/
structure ProcOut where
  written : List Tuple
  attempts : Nat
  fired : Bool
  isErr : Bool
deriving DecidableEq, Repr

/-- `bqlBox.Process`: return immediately once a non-negative limit is
reached; feed the tuple to the plan; run the row loop; then, unless a write
error aborted the call, fire the self-detach callback (at most once, nilling
it afterwards) if the limit has been reached. -/
def bqlProcess (b : BqlBox) (inp : ProcessInput) : BqlBox × ProcOut :=
  if 0 ≤ b.emitterLimit ∧ b.emitterLimit ≤ b.emitCount then
    (b, ⟨[], 0, false, false⟩)
  else if inp.planErr then (b, ⟨[], 0, false, true⟩)
  else
    let r := processRows inp.t inp.writer b inp.rows
    if r.aborted then (r.box, ⟨r.written, r.attempts, false, true⟩)
    else if 0 ≤ r.box.emitterLimit ∧ r.box.emitterLimit ≤ r.box.emitCount then
      if r.box.removeMe then
        ({ r.box with removeMe := false }, ⟨r.written, r.attempts, true, false⟩)
      else (r.box, ⟨r.written, r.attempts, false, false⟩)
    else (r.box, ⟨r.written, r.attempts, false, false⟩)

/-- Observable output of one tick of the time-based emitter: the tuple
passed to `Write` (if any), whether that write succeeded, and whether
`removeMe` was invoked. -/
structure TickOut where
  wrote : Option Tuple
  delivered : Bool
  fired : Bool
deriving DecidableEq, Repr

/-- One wake-up of `timeEmitter`: a stopped box eats the tick; otherwise,
when a pending tuple and writer exist, write the tuple (an error is only
logged), clear the pending slot, increment `emitCount`, and on reaching the
limit set `stopped` and fire the self-detach callback once. -/
def bqlTick (b : BqlBox) (writeOk : Bool) : BqlBox × TickOut :=
  if b.stopped then (b, ⟨none, false, false⟩)
  else
    match b.lastTuple, b.lastWriter with
    | some tup, some _ =>
      let b1 := { b with lastTuple := none, emitCount := b.emitCount + 1 }
      if 0 ≤ b1.emitterLimit ∧ b1.emitterLimit ≤ b1.emitCount then
        let b2 := { b1 with stopped := true }
        if b2.removeMe then
          ({ b2 with removeMe := false }, ⟨some tup, writeOk, true⟩)
        else (b2, ⟨some tup, writeOk, false⟩)
      else (b1, ⟨some tup, writeOk, false⟩)
    | _, _ => (b, ⟨none, false, false⟩)

/-- `bqlBox.Terminate`: set `stopped` under the time-emitter mutex; the Go
function always returns nil. -/
def bqlTerminate (b : BqlBox) : BqlBox :=
  { b with stopped := true }

/-- An event in the life of a `bqlBox`: a `Process` call (with its oracle),
a time-emitter tick (with its write outcome), or a `Terminate` call. -/
inductive BoxEvent where
  | process (inp : ProcessInput)
  | tick (writeOk : Bool)
  | terminate
deriving DecidableEq, Repr

/-- Aggregated observable output of a sequence of events. -/
structure RunOut where
  procWritten : List Tuple
  procAttempts : Nat
  tickWrites : List Tuple
  tickDelivered : Nat
  fired : Nat
deriving DecidableEq, Repr

/-- Output of a single event. -/
def boxStep (b : BqlBox) (ev : BoxEvent) : BqlBox × RunOut :=
  match ev with
  | .process inp =>
    let s := bqlProcess b inp
    (s.1, ⟨s.2.written, s.2.attempts, [], 0, if s.2.fired then 1 else 0⟩)
  | .tick ok =>
    let s := bqlTick b ok
    (s.1, ⟨[], 0, s.2.wrote.toList, if s.2.delivered then 1 else 0,
          if s.2.fired then 1 else 0⟩)
  | .terminate => (bqlTerminate b, ⟨[], 0, [], 0, 0⟩)

/-- The invariant that keeps `emitCount` within a non-negative limit: the
count never exceeds the limit; at the limit either the box is stopped or no
tuple is pending (so a tick cannot write); and outside time-based sampling
the pending slot is always empty. -/
def LimitInv (b : BqlBox) : Prop :=
  0 ≤ b.emitterLimit ∧ b.emitCount ≤ b.emitterLimit ∧
    (b.emitCount = b.emitterLimit → b.stopped = true ∨ b.lastTuple = none) ∧
    (b.emitterSamplingType ≠ .timeBased → b.lastTuple = none)

/-- Run a sequence of events, accumulating the observable output. -/
def runBox (b : BqlBox) : List BoxEvent → BqlBox × RunOut
  | [] => (b, ⟨[], 0, [], 0, 0⟩)
  | ev :: rest =>
    let s := boxStep b ev
    let r := runBox s.1 rest
    (r.1, ⟨s.2.procWritten ++ r.2.procWritten, s.2.procAttempts + r.2.procAttempts,
          s.2.tickWrites ++ r.2.tickWrites, s.2.tickDelivered + r.2.tickDelivered,
          s.2.fired + r.2.fired⟩)

/-- A trace is clean when every `Process` call has a successful plan and
every written row's `Write` succeeds. -/
def BoxEvent.clean : BoxEvent → Bool
  | .process inp => !inp.planErr && inp.rows.all (fun row => row.writeOk)
  | _ => true

/-- All events of a trace are clean. -/
def cleanTrace (evs : List BoxEvent) : Bool :=
  evs.all BoxEvent.clean

/-- The number of result rows generated across a trace. -/
def totalRows : List BoxEvent → Nat
  | [] => 0
  | .process inp :: rest => inp.rows.length + totalRows rest
  | _ :: rest => totalRows rest

/-- The tuples that count-based sampling with modulus `k` emits from the
rows of one `Process` call when the generation counter starts at `g`: row
number `g + i` is emitted iff `(g + i) % k == 0`. -/
def expectedRows (t : Tuple) (k : Int) : Int → List RowOracle → List Tuple
  | _, [] => []
  | g, row :: rest =>
    (if g % k == 0 then [mkResultTuple t row.data] else []) ++
      expectedRows t k (g + 1) rest

/-- The tuples count-based sampling emits over a whole trace, threading the
generation counter through the `Process` calls. -/
def expectedTrace (k : Int) : Int → List BoxEvent → List Tuple
  | _, [] => []
  | g, .process inp :: rest =>
    expectedRows inp.t k g inp.rows ++
      expectedTrace k (g + inp.rows.length) rest
  | g, _ :: rest => expectedTrace k g rest

/-- The number of `i < n` with `(g + i) % k == 0`. -/
def countMult (k g : Int) : Nat → Nat
  | 0 => 0
  | n + 1 => (if g % k == 0 then 1 else 0) + countMult k (g + 1) n

/-- `parser.IntervalUnit` as used by `TopologyBuilder.AddStmt`: either no
RANGE clause was given or a unit was. -/
inductive IntervalUnit where
  | unspecifiedIntervalUnit
  | tuples
  | seconds
deriving DecidableEq, Repr

/-- `parser.EmitterType`. -/
inductive EmitterType where
  | unspecifiedEmitter
  | istream
  | dstream
  | rstream
deriving DecidableEq, Repr

/-- `parser.AliasedStreamWindowAST` as far as `AddStmt` inspects it: the
relation name and the embedded `IntervalAST` (numeric value and unit). -/
structure AliasedStreamWindowAST where
  name : String
  value : Int
  unit : IntervalUnit
deriving DecidableEq, Repr

/-- `parser.CreateStreamAsSelectStmt`: the stream name, the emitter and the
referenced relations; the projections, filter, grouping and having parts
are opaque payloads that `AddStmt` copies verbatim. -/
structure CreateStreamAsSelectStmt where
  name : String
  emitterType : EmitterType
  projections : Nat
  relations : List AliasedStreamWindowAST
  filter : Nat
  grouping : Nat
  having : Nat
deriving DecidableEq, Repr

/-- `parser.InsertIntoSelectStmt`. -/
structure InsertIntoSelectStmt where
  sink : String
  emitterType : EmitterType
  projections : Nat
  relations : List AliasedStreamWindowAST
  filter : Nat
  grouping : Nat
  having : Nat
deriving DecidableEq, Repr

/-- Errors surfaced by the modelled `AddStmt` paths. -/
inductive AddErr where
  | nameTaken (name : String)
  | unknownRef (name : String)
  | unknownSink (name : String)
  | rangeNotAllowed
  | emitterNotAllowed (ty : EmitterType)
deriving DecidableEq, Repr

/-- Modelled from the spec: the `core.DynamicTopology` that
`TopologyBuilder` mutates is not under src/. Per spec sections 3 and 4.2 it
is a set of uniquely named nodes — sources, boxes (kept here with their
defining statement) and sinks — plus labeled edges, mutated through
`AddBox`, `<node>.Input` and `Remove`. -/
structure DynTopology where
  sources : List String
  boxes : List (String × CreateStreamAsSelectStmt)
  sinks : List String
  edges : List (String × String × String)
deriving DecidableEq, Repr

/-- All node names of the topology (names collide across kinds, spec I1). -/
def DynTopology.nodeNames (t : DynTopology) : List String :=
  t.sources ++ t.boxes.map Prod.fst ++ t.sinks

/-- Modelled from the spec: `<node>.Input(ref, cfg)` adds the labeled edge
`ref → node`, failing with `UnknownRef` when `ref` names no source or box.
The dynamic cycle re-check of spec section 4.2 is not modelled: the claims
settled against this model quantify only over whether the call fails. -/
def DynTopology.nodeInput (t : DynTopology) (node ref label : String) :
    DynTopology × Option AddErr :=
  if t.sources.contains ref || (t.boxes.map Prod.fst).contains ref then
    ({ t with edges := t.edges ++ [(ref, node, label)] }, none)
  else (t, some (.unknownRef ref))

/-- Modelled from the spec: `Remove(name)` drops the node and every edge
incident to it. -/
def DynTopology.removeNode (t : DynTopology) (name : String) : DynTopology :=
  { sources := t.sources.filter (fun s => !(s == name)),
    boxes := t.boxes.filter (fun b => !(b.1 == name)),
    sinks := t.sinks.filter (fun s => !(s == name)),
    edges := t.edges.filter (fun e => !(e.1 == name) && !(e.2.1 == name)) }

/-- The `for _, rel := range stmt.Relations` loop of the
`CreateStreamAsSelectStmt` case: connect each referenced relation as a
named input whose label is the relation name, stopping at the first
failure. -/
def connectRels (boxName : String) :
    DynTopology → List AliasedStreamWindowAST → DynTopology × Option AddErr
  | t, [] => (t, none)
  | t, rel :: rest =>
    let r := t.nodeInput boxName rel.name rel.name
    match r.2 with
    | none => connectRels boxName r.1 rest
    | some e => (r.1, some e)

/-- The `CreateStreamAsSelectStmt` case of `TopologyBuilder.AddStmt`: add a
box for the statement (`AddBox` fails with `NameTaken` on collision, spec
I1), connect all referenced relations, and on a failed connection remove
the just-added box (`tb.topology.Remove(outName)`) before returning the
error. The `StopOnDisconnect` flag is not modelled. -/
def addCreateStream (t : DynTopology) (stmt : CreateStreamAsSelectStmt) :
    DynTopology × Except AddErr String :=
  if t.nodeNames.contains stmt.name then (t, .error (.nameTaken stmt.name))
  else
    let t1 : DynTopology := { t with boxes := t.boxes ++ [(stmt.name, stmt)] }
    let c := connectRels stmt.name t1 stmt.relations
    match c.2 with
    | none => (c.1, .ok stmt.name)
    | some e => (c.1.removeNode stmt.name, .error e)

/-- The `InsertIntoSelectStmt` case of `TopologyBuilder.AddStmt`: look up
the sink; reject any relation carrying a RANGE clause, then any explicit
emitter; desugar into a temporary `CREATE STREAM sensorbee_tmp_<id> AS
SELECT RSTREAM ...` whose every relation gets `[RANGE 1 TUPLES]`; add that
stream; connect it to the sink (label `"output"`, per spec section 3,
since the sink-side `Input` is not under src/); on a failed sink
connection remove the temporary stream. -/
def addInsertInto (t : DynTopology) (tmpId : Int) (stmt : InsertIntoSelectStmt) :
    DynTopology × Except AddErr String :=
  if !(t.sinks.contains stmt.sink) then (t, .error (.unknownSink stmt.sink))
  else if stmt.relations.any
      (fun rel => !(rel.unit == .unspecifiedIntervalUnit)) then
    (t, .error .rangeNotAllowed)
  else if !(stmt.emitterType == .unspecifiedEmitter) then
    (t, .error (.emitterNotAllowed stmt.emitterType))
  else
    let tmpName := "sensorbee_tmp_" ++ toString tmpId
    let newRels := stmt.relations.map
      (fun rel => { rel with value := 1, unit := IntervalUnit.tuples })
    let tmpStmt : CreateStreamAsSelectStmt :=
      ⟨tmpName, .rstream, stmt.projections, newRels, stmt.filter,
        stmt.grouping, stmt.having⟩
    let a := addCreateStream t tmpStmt
    match a.2 with
    | .error e => (a.1, .error e)
    | .ok _ =>
      let si := a.1.nodeInput stmt.sink tmpName "output"
      match si.2 with
      | none => (si.1, .ok tmpName)
      | some e => (si.1.removeNode tmpName, .error e)

end Bql

/-- A concrete failed box declarer, used by the C9 witness. -/
def failedBoxDeclarer : Core.BoxDeclarer :=
  ⟨Core.newBuilder, "b", .nilSchema, some (.unknownRef "x")⟩

/-- A concrete failed sink declarer, used by the C9 witness. -/
def failedSinkDeclarer : Core.SinkDeclarer :=
  ⟨Core.newBuilder, "k", some (.nameTaken "k")⟩

/-- A builder with a cycle `a -> b -> a` that is not reachable from its only
source `s`; used to separate "the edge set contains a cycle" from "the DFS
from the sources finds a cycle". -/
def hiddenCycleBuilder : Core.Builder :=
  ⟨["s"], [("a", .nilSchema), ("b", .nilSchema)], [],
    [⟨"a", "b", "*"⟩, ⟨"b", "a", "*"⟩], false⟩

/-- A builder whose cycle `a -> b -> a` is reachable from the source `s`
through the edge `s -> a`. -/
def reachableCycleBuilder : Core.Builder :=
  ⟨["s"], [("a", .nilSchema), ("b", .nilSchema)], [],
    [⟨"s", "a", "*"⟩, ⟨"a", "b", "*"⟩, ⟨"b", "a", "*"⟩], false⟩


namespace Core

theorem BoxDeclarer.namedInput_of_err {bd : BoxDeclarer} (h : bd.err.isSome)
    (r i : String) : bd.NamedInput r i = bd := by
  simp [BoxDeclarer.NamedInput, h]

theorem SinkDeclarer.input_of_err {sd : SinkDeclarer} (h : sd.err.isSome)
    (r : String) : sd.Input r = sd := by
  simp [SinkDeclarer.Input, h]

theorem BoxDeclarer.runInputsBox_of_err {bd : BoxDeclarer} (h : bd.err.isSome)
    (ops : List (String × String)) : bd.runInputs ops = bd := by
  induction ops with
  | nil => rfl
  | cons p rest ih =>
    show ((bd.NamedInput p.1 p.2).runInputs rest) = bd
    rw [BoxDeclarer.namedInput_of_err h]
    exact ih

theorem SinkDeclarer.runInputsSink_of_err {sd : SinkDeclarer} (h : sd.err.isSome)
    (ops : List String) : sd.runInputs ops = sd := by
  induction ops with
  | nil => rfl
  | cons r rest ih =>
    show ((sd.Input r).runInputs rest) = sd
    rw [SinkDeclarer.input_of_err h]
    exact ih

end Core

/-- Claim C1: evaluation of the code at the failing input. Starting from a
fresh builder, add source `s` and boxes `b1`, `b2`, connect `b1` to `s`,
then connect `b2` to `s` twice. The second, duplicate `Input "s"` call on
`b2` is not rejected: the edge list ends with two equal `(s, b2, *)`
triples and the declarer's error is `nil`, because the duplicate-edge loop
breaks after comparing only the first element of the edge list. -/
theorem duplicate_edge_not_rejected :
    (let st1 := Core.newBuilder.AddSource "s"
     let st2 := st1.1.AddBox "b1" .nilSchema
     let bd1 := st2.2.Input "s"
     let st3 := bd1.tb.AddBox "b2" .nilSchema
     let bd2 := (st3.2.Input "s").Input "s"
     bd2.tb.Edges =
        [⟨"s", "b1", "*"⟩, ⟨"s", "b2", "*"⟩, ⟨"s", "b2", "*"⟩] ∧
       bd2.err = none) :=
  ⟨rfl, rfl⟩

/-- Claim C9: once an operation on a box or sink declarer has failed, every
subsequent `Input`/`NamedInput` call returns the declarer unchanged — no
edge is appended to the builder and the first error is still the one
reported by `Err()`. -/
theorem declarer_first_error_sticks (bd : Core.BoxDeclarer)
    (sd : Core.SinkDeclarer) (e e' : Core.BuilderError)
    (hb : bd.err = some e) (hs : sd.err = some e')
    (ops : List (String × String)) (ops' : List String) :
    bd.runInputs ops = bd ∧ (bd.runInputs ops).tb.Edges = bd.tb.Edges ∧
      (bd.runInputs ops).err = some e ∧
      sd.runInputs ops' = sd ∧ (sd.runInputs ops').tb.Edges = sd.tb.Edges ∧
      (sd.runInputs ops').err = some e' := by
  have h1 : bd.err.isSome := by rw [hb]; rfl
  have h2 : sd.err.isSome := by rw [hs]; rfl
  rw [Core.BoxDeclarer.runInputsBox_of_err h1, Core.SinkDeclarer.runInputsSink_of_err h2]
  exact ⟨rfl, rfl, hb, rfl, rfl, hs⟩

/-- Witness for C9 at a concrete failed box declarer and sink declarer. -/
theorem declarer_first_error_sticks_witness :
    failedBoxDeclarer.runInputs [("s", "*"), ("t", "left")] = failedBoxDeclarer ∧
      (failedBoxDeclarer.runInputs [("s", "*"), ("t", "left")]).tb.Edges =
        failedBoxDeclarer.tb.Edges ∧
      (failedBoxDeclarer.runInputs [("s", "*"), ("t", "left")]).err =
        some (.unknownRef "x") ∧
      failedSinkDeclarer.runInputs ["s"] = failedSinkDeclarer ∧
      (failedSinkDeclarer.runInputs ["s"]).tb.Edges = failedSinkDeclarer.tb.Edges ∧
      (failedSinkDeclarer.runInputs ["s"]).err = some (.nameTaken "k") :=
  declarer_first_error_sticks failedBoxDeclarer failedSinkDeclarer
    (.unknownRef "x") (.nameTaken "k") rfl rfl [("s", "*"), ("t", "left")] ["s"]

namespace Bql

theorem processRows_removeMe (t : Tuple) (w : Nat) :
    ∀ (rows : List RowOracle) (b : BqlBox),
      (processRows t w b rows).box.removeMe = b.removeMe := by
  intro rows
  induction rows with
  | nil => intro b; rfl
  | cons row rest ih =>
    intro b
    simp only [processRows]
    split
    · exact ih _
    · split
      · split
        · split
          · rfl
          · exact ih _
        · rfl
      · split
        · rfl
        · exact ih _

theorem bqlProcess_fired_removeMe (b : BqlBox) (inp : ProcessInput) :
    ((bqlProcess b inp).2.fired = true → (bqlProcess b inp).1.removeMe = false) ∧
      (b.removeMe = false →
        (bqlProcess b inp).2.fired = false ∧ (bqlProcess b inp).1.removeMe = false) := by
  have hrm := processRows_removeMe inp.t inp.writer inp.rows b
  simp only [bqlProcess]
  split
  · exact ⟨fun h => absurd h (by simp), fun h => ⟨rfl, h⟩⟩
  · split
    · exact ⟨fun h => absurd h (by simp), fun h => ⟨rfl, h⟩⟩
    · split
      · exact ⟨fun h => absurd h (by simp), fun h => ⟨rfl, hrm.trans h⟩⟩
      · split
        · split
          · exact ⟨fun _ => rfl, fun h => by rw [hrm] at *; simp_all⟩
          · exact ⟨fun h => absurd h (by simp), fun h => ⟨rfl, hrm.trans h⟩⟩
        · exact ⟨fun h => absurd h (by simp), fun h => ⟨rfl, hrm.trans h⟩⟩

theorem bqlTick_fired_removeMe (b : BqlBox) (ok : Bool) :
    ((bqlTick b ok).2.fired = true → (bqlTick b ok).1.removeMe = false) ∧
      (b.removeMe = false →
        (bqlTick b ok).2.fired = false ∧ (bqlTick b ok).1.removeMe = false) := by
  simp only [bqlTick]
  split
  · exact ⟨fun h => absurd h (by simp), fun h => ⟨rfl, h⟩⟩
  · split
    · split
      · split
        · exact ⟨fun _ => rfl, fun h => by simp_all⟩
        · exact ⟨fun h => absurd h (by simp), fun h => ⟨rfl, h⟩⟩
      · exact ⟨fun h => absurd h (by simp), fun h => ⟨rfl, h⟩⟩
    · exact ⟨fun h => absurd h (by simp), fun h => ⟨rfl, h⟩⟩

theorem boxStep_fired (b : BqlBox) (ev : BoxEvent) :
    (boxStep b ev).2.fired ≤ 1 ∧
      (1 ≤ (boxStep b ev).2.fired → (boxStep b ev).1.removeMe = false) ∧
      (b.removeMe = false →
        (boxStep b ev).2.fired = 0 ∧ (boxStep b ev).1.removeMe = false) := by
  cases ev with
  | process inp =>
    have h := bqlProcess_fired_removeMe b inp
    simp only [boxStep]
    refine ⟨by split <;> omega, ?_, ?_⟩
    · intro hf
      split at hf
      · next hfired => exact h.1 hfired
      · omega
    · intro hrm
      have := h.2 hrm
      refine ⟨by simp [this.1], this.2⟩
  | tick ok =>
    have h := bqlTick_fired_removeMe b ok
    simp only [boxStep]
    refine ⟨by split <;> omega, ?_, ?_⟩
    · intro hf
      split at hf
      · next hfired => exact h.1 hfired
      · omega
    · intro hrm
      have := h.2 hrm
      refine ⟨by simp [this.1], this.2⟩
  | terminate => exact ⟨by simp [boxStep], by simp [boxStep], fun h => ⟨rfl, h⟩⟩

theorem runBox_no_fire (evs : List BoxEvent) :
    ∀ b : BqlBox, b.removeMe = false →
      (runBox b evs).2.fired = 0 ∧ (runBox b evs).1.removeMe = false := by
  induction evs with
  | nil => intro b h; exact ⟨rfl, h⟩
  | cons ev rest ih =>
    intro b h
    have hs := (boxStep_fired b ev).2.2 h
    have hr := ih _ hs.2
    simp only [runBox]
    exact ⟨by rw [hs.1, hr.1], hr.2⟩

end Bql

/-- Claim C7: over any sequence of `Process` calls, time-emitter ticks and
`Terminate` calls, the `removeMe` self-detach callback of a `bqlBox` is
invoked at most once: both call sites check it for nil and nil it out after
firing, and nothing ever re-arms it. -/
theorem removeMe_fired_at_most_once (b : Bql.BqlBox) (evs : List Bql.BoxEvent) :
    (Bql.runBox b evs).2.fired ≤ 1 := by
  induction evs generalizing b with
  | nil => simp [Bql.runBox]
  | cons ev rest ih =>
    have hs := Bql.boxStep_fired b ev
    simp only [Bql.runBox]
    rcases Nat.lt_or_ge (Bql.boxStep b ev).2.fired 1 with hlt | hge
    · have : (Bql.boxStep b ev).2.fired = 0 := by omega
      rw [this]
      simpa using ih ((Bql.boxStep b ev).1)
    · have hrm := hs.2.1 hge
      have hr := Bql.runBox_no_fire rest _ hrm
      rw [hr.1]
      omega

namespace Bql

theorem processRows_const (t : Tuple) (w : Nat) :
    ∀ (rows : List RowOracle) (b : BqlBox),
      (processRows t w b rows).box.emitterLimit = b.emitterLimit ∧
        (processRows t w b rows).box.emitterSampling = b.emitterSampling ∧
        (processRows t w b rows).box.emitterSamplingType = b.emitterSamplingType ∧
        (processRows t w b rows).box.stopped = b.stopped := by
  intro rows
  induction rows with
  | nil => intro b; exact ⟨rfl, rfl, rfl, rfl⟩
  | cons row rest ih =>
    intro b
    simp only [processRows]
    split
    · exact ih _
    · split
      · split
        · split
          · exact ⟨rfl, rfl, rfl, rfl⟩
          · exact ih _
        · exact ⟨rfl, rfl, rfl, rfl⟩
      · split
        · exact ⟨rfl, rfl, rfl, rfl⟩
        · exact ih _

theorem processRows_lastTuple (t : Tuple) (w : Nat) :
    ∀ (rows : List RowOracle) (b : BqlBox),
      b.emitterSamplingType ≠ .timeBased →
      (processRows t w b rows).box.lastTuple = b.lastTuple ∧
        (processRows t w b rows).box.lastWriter = b.lastWriter := by
  intro rows
  induction rows with
  | nil => intro b _; exact ⟨rfl, rfl⟩
  | cons row rest ih =>
    intro b hty
    simp only [processRows]
    split
    · next h => exact absurd h hty
    · split
      · split
        · split
          · exact ⟨rfl, rfl⟩
          · exact ih _ hty
        · exact ⟨rfl, rfl⟩
      · split
        · exact ⟨rfl, rfl⟩
        · exact ih _ hty

theorem bqlProcess_const (b : BqlBox) (inp : ProcessInput) :
    (bqlProcess b inp).1.emitterLimit = b.emitterLimit ∧
      (bqlProcess b inp).1.emitterSampling = b.emitterSampling ∧
      (bqlProcess b inp).1.emitterSamplingType = b.emitterSamplingType ∧
      (bqlProcess b inp).1.stopped = b.stopped := by
  have h := processRows_const inp.t inp.writer inp.rows b
  simp only [bqlProcess]
  split
  · exact ⟨rfl, rfl, rfl, rfl⟩
  · split
    · exact ⟨rfl, rfl, rfl, rfl⟩
    · split
      · exact h
      · split
        · split
          · exact h
          · exact h
        · exact h

theorem bqlTick_stopped_noop (b : BqlBox) (ok : Bool) (h : b.stopped = true) :
    bqlTick b ok = (b, ⟨none, false, false⟩) := by
  simp [bqlTick, h]

theorem boxStep_stopped (b : BqlBox) (ev : BoxEvent) (h : b.stopped = true) :
    (boxStep b ev).1.stopped = true ∧ (boxStep b ev).2.tickWrites = [] := by
  cases ev with
  | process inp =>
    exact ⟨((bqlProcess_const b inp).2.2.2).trans h, rfl⟩
  | tick ok =>
    simp only [boxStep, bqlTick_stopped_noop b ok h]
    exact ⟨h, rfl⟩
  | terminate => exact ⟨rfl, rfl⟩

theorem runBox_stopped (evs : List BoxEvent) :
    ∀ b : BqlBox, b.stopped = true →
      (runBox b evs).2.tickWrites = [] ∧ (runBox b evs).1.stopped = true := by
  induction evs with
  | nil => intro b h; exact ⟨rfl, h⟩
  | cons ev rest ih =>
    intro b h
    have hs := boxStep_stopped b ev h
    have hr := ih _ hs.1
    simp only [runBox]
    exact ⟨by rw [hs.2, hr.1]; rfl, hr.2⟩

end Bql

/-- Claim C6: `Terminate` sets the `stopped` flag (and touches nothing
else, so a pending `lastTuple` is left in place rather than flushed), it is
idempotent, and from any terminated state no later tick of the time-based
emitter ever writes a tuple — the pending tuple is dropped forever. -/
theorem terminate_stops_time_emitter (b : Bql.BqlBox) (evs : List Bql.BoxEvent) :
    (Bql.bqlTerminate b).stopped = true ∧
      (Bql.bqlTerminate b).lastTuple = b.lastTuple ∧
      Bql.bqlTerminate (Bql.bqlTerminate b) = Bql.bqlTerminate b ∧
      (Bql.runBox (Bql.bqlTerminate b) evs).2.tickWrites = [] ∧
      (Bql.runBox (Bql.bqlTerminate b) evs).1.stopped = true := by
  have h := Bql.runBox_stopped evs (Bql.bqlTerminate b) rfl
  exact ⟨rfl, rfl, rfl, h.1, h.2⟩

namespace Bql

theorem tbStore_const (t : Tuple) (w : Nat) :
    ∀ (rows : List RowOracle) (b : BqlBox),
      (tbStore t w b rows).emitterLimit = b.emitterLimit ∧
        (tbStore t w b rows).emitterSampling = b.emitterSampling ∧
        (tbStore t w b rows).emitterSamplingType = b.emitterSamplingType ∧
        (tbStore t w b rows).genCount = b.genCount ∧
        (tbStore t w b rows).emitCount = b.emitCount ∧
        (tbStore t w b rows).stopped = b.stopped ∧
        (tbStore t w b rows).removeMe = b.removeMe := by
  intro rows
  induction rows with
  | nil => intro b; exact ⟨rfl, rfl, rfl, rfl, rfl, rfl, rfl⟩
  | cons row rest ih => intro b; exact ih _

theorem tbStore_last (t : Tuple) (w : Nat) :
    ∀ (rows : List RowOracle) (b : BqlBox) (h : rows ≠ []),
      (tbStore t w b rows).lastTuple =
          some (mkResultTuple t (rows.getLast h).data) ∧
        (tbStore t w b rows).lastWriter = some w := by
  intro rows
  induction rows with
  | nil => intro b h; exact absurd rfl h
  | cons row rest ih =>
    intro b h
    rcases Decidable.em (rest = []) with hrest | hrest
    · subst hrest; exact ⟨rfl, rfl⟩
    · have := ih { b with lastTuple := some (mkResultTuple t row.data), lastWriter := some w } hrest
      rw [List.getLast_cons hrest]
      exact this

theorem processRows_tb (t : Tuple) (w : Nat) :
    ∀ (rows : List RowOracle) (b : BqlBox),
      b.emitterSamplingType = .timeBased →
      processRows t w b rows = ⟨tbStore t w b rows, [], 0, false⟩ := by
  intro rows
  induction rows with
  | nil => intro b _; rfl
  | cons row rest ih =>
    intro b hty
    have hstep : processRows t w b (row :: rest) =
        processRows t w { b with lastTuple := some (mkResultTuple t row.data), lastWriter := some w } rest := by
      simp only [processRows, hty]
      rfl
    rw [hstep,
      ih { b with lastTuple := some (mkResultTuple t row.data), lastWriter := some w } hty]
    rfl

theorem bqlProcess_tb (b : BqlBox) (inp : ProcessInput)
    (hty : b.emitterSamplingType = .timeBased) :
    (bqlProcess b inp).2.attempts = 0 ∧ (bqlProcess b inp).2.written = [] ∧
      (bqlProcess b inp).2.fired = false ∧
      (bqlProcess b inp).1.genCount = b.genCount ∧
      (bqlProcess b inp).1.emitCount = b.emitCount ∧
      (bqlProcess b inp).1.removeMe = b.removeMe ∧
      (¬(0 ≤ b.emitterLimit ∧ b.emitterLimit ≤ b.emitCount) → inp.planErr = false →
        (bqlProcess b inp).1 = tbStore inp.t inp.writer b inp.rows) := by
  have heq := processRows_tb inp.t inp.writer inp.rows b hty
  have hconst := tbStore_const inp.t inp.writer inp.rows b
  simp only [bqlProcess, heq]
  split
  · next hguard =>
    exact ⟨rfl, rfl, rfl, rfl, rfl, rfl, fun h _ => absurd hguard h⟩
  · next hguard =>
    split
    · next hplan =>
      exact ⟨rfl, rfl, rfl, rfl, rfl, rfl,
        fun _ hp => by rw [hp] at hplan; exact absurd hplan (by simp)⟩
    · have hcond : ¬(0 ≤ (tbStore inp.t inp.writer b inp.rows).emitterLimit ∧
          (tbStore inp.t inp.writer b inp.rows).emitterLimit ≤
            (tbStore inp.t inp.writer b inp.rows).emitCount) := by
        rw [hconst.1, hconst.2.2.2.2.1]
        exact hguard
      rw [if_neg (by simp)]
      rw [if_neg hcond]
      exact ⟨rfl, rfl, rfl, hconst.2.2.2.1, hconst.2.2.2.2.1, hconst.2.2.2.2.2.2,
        fun _ _ => rfl⟩

theorem boxStep_samplingType (b : BqlBox) (ev : BoxEvent) :
    (boxStep b ev).1.emitterSamplingType = b.emitterSamplingType := by
  cases ev with
  | process inp => exact (bqlProcess_const b inp).2.2.1
  | tick ok =>
    simp only [boxStep, bqlTick]
    split
    · rfl
    · split
      · split
        · split
          · rfl
          · rfl
        · rfl
      · rfl
  | terminate => rfl

theorem runBox_tb_no_proc_writes (evs : List BoxEvent) :
    ∀ b : BqlBox, b.emitterSamplingType = .timeBased →
      (runBox b evs).2.procAttempts = 0 ∧ (runBox b evs).2.procWritten = [] := by
  induction evs with
  | nil => intro b _; exact ⟨rfl, rfl⟩
  | cons ev rest ih =>
    intro b hty
    have hr := ih (boxStep b ev).1 (by rw [boxStep_samplingType]; exact hty)
    simp only [runBox]
    cases ev with
    | process inp =>
      have ho := bqlProcess_tb b inp hty
      refine ⟨?_, ?_⟩
      · show (bqlProcess b inp).2.attempts + _ = 0
        rw [ho.1, hr.1]
      · show (bqlProcess b inp).2.written ++ _ = []
        rw [ho.2.1, hr.2]; rfl
    | tick ok =>
      refine ⟨?_, ?_⟩
      · show 0 + _ = 0
        rw [hr.1]
      · show [] ++ _ = []
        rw [hr.2]; rfl
    | terminate =>
      refine ⟨?_, ?_⟩
      · show 0 + _ = 0
        rw [hr.1]
      · show [] ++ _ = []
        rw [hr.2]; rfl

end Bql

/-- Claim C5: under time-based sampling, `Process` never calls the writer's
`Write` — zero write attempts, no emission, no detach firing; the only state
change is storing the generated tuples' last value and the writer in the
pending slots (so when rows were generated, `lastTuple` holds the last of
them and `lastWriter` the writer); over any event sequence the `Process`
calls together contribute zero writes, so every emission comes from the
periodic time-emitter worker. -/
theorem time_based_process_never_writes (b : Bql.BqlBox) (inp : Bql.ProcessInput)
    (hty : b.emitterSamplingType = .timeBased) :
    (Bql.bqlProcess b inp).2.attempts = 0 ∧
      (Bql.bqlProcess b inp).2.written = [] ∧
      (Bql.bqlProcess b inp).2.fired = false ∧
      (Bql.bqlProcess b inp).1.genCount = b.genCount ∧
      (Bql.bqlProcess b inp).1.emitCount = b.emitCount ∧
      (Bql.bqlProcess b inp).1.stopped = b.stopped ∧
      (Bql.bqlProcess b inp).1.removeMe = b.removeMe ∧
      (¬(0 ≤ b.emitterLimit ∧ b.emitterLimit ≤ b.emitCount) → inp.planErr = false →
        (Bql.bqlProcess b inp).1 = Bql.tbStore inp.t inp.writer b inp.rows ∧
        ∀ h : inp.rows ≠ [],
          (Bql.bqlProcess b inp).1.lastTuple =
              some (Bql.mkResultTuple inp.t (inp.rows.getLast h).data) ∧
            (Bql.bqlProcess b inp).1.lastWriter = some inp.writer) ∧
      (∀ evs : List Bql.BoxEvent,
        (Bql.runBox b evs).2.procAttempts = 0 ∧
          (Bql.runBox b evs).2.procWritten = []) := by
  have h := Bql.bqlProcess_tb b inp hty
  refine ⟨h.1, h.2.1, h.2.2.1, h.2.2.2.1, h.2.2.2.2.1,
    (Bql.bqlProcess_const b inp).2.2.2, h.2.2.2.2.2.1, ?_,
    fun evs => Bql.runBox_tb_no_proc_writes evs b hty⟩
  intro hguard hplan
  have hst := h.2.2.2.2.2.2 hguard hplan
  refine ⟨hst, fun hne => ?_⟩
  rw [hst]
  exact Bql.tbStore_last inp.t inp.writer inp.rows b hne

/-- Witness for C5: a concrete time-based box and trace. -/
theorem time_based_process_never_writes_witness :
    (Bql.bqlProcess ⟨-1, 50, .timeBased, 0, 0, none, none, false, true⟩
        ⟨⟨0, 1, 2, 3, []⟩, 9, false, [⟨4, 0, true⟩, ⟨5, 0, true⟩]⟩).2.attempts = 0 ∧
      (Bql.bqlProcess ⟨-1, 50, .timeBased, 0, 0, none, none, false, true⟩
        ⟨⟨0, 1, 2, 3, []⟩, 9, false, [⟨4, 0, true⟩, ⟨5, 0, true⟩]⟩).2.written = [] ∧
      (Bql.bqlProcess ⟨-1, 50, .timeBased, 0, 0, none, none, false, true⟩
        ⟨⟨0, 1, 2, 3, []⟩, 9, false, [⟨4, 0, true⟩, ⟨5, 0, true⟩]⟩).2.fired = false ∧
      (Bql.bqlProcess ⟨-1, 50, .timeBased, 0, 0, none, none, false, true⟩
        ⟨⟨0, 1, 2, 3, []⟩, 9, false, [⟨4, 0, true⟩, ⟨5, 0, true⟩]⟩).1.genCount =
        (⟨-1, 50, .timeBased, 0, 0, none, none, false, true⟩ : Bql.BqlBox).genCount ∧
      (Bql.bqlProcess ⟨-1, 50, .timeBased, 0, 0, none, none, false, true⟩
        ⟨⟨0, 1, 2, 3, []⟩, 9, false, [⟨4, 0, true⟩, ⟨5, 0, true⟩]⟩).1.emitCount =
        (⟨-1, 50, .timeBased, 0, 0, none, none, false, true⟩ : Bql.BqlBox).emitCount ∧
      (Bql.bqlProcess ⟨-1, 50, .timeBased, 0, 0, none, none, false, true⟩
        ⟨⟨0, 1, 2, 3, []⟩, 9, false, [⟨4, 0, true⟩, ⟨5, 0, true⟩]⟩).1.stopped =
        (⟨-1, 50, .timeBased, 0, 0, none, none, false, true⟩ : Bql.BqlBox).stopped ∧
      (Bql.bqlProcess ⟨-1, 50, .timeBased, 0, 0, none, none, false, true⟩
        ⟨⟨0, 1, 2, 3, []⟩, 9, false, [⟨4, 0, true⟩, ⟨5, 0, true⟩]⟩).1.removeMe =
        (⟨-1, 50, .timeBased, 0, 0, none, none, false, true⟩ : Bql.BqlBox).removeMe ∧
      (¬(0 ≤ (⟨-1, 50, .timeBased, 0, 0, none, none, false, true⟩ : Bql.BqlBox).emitterLimit ∧
          (⟨-1, 50, .timeBased, 0, 0, none, none, false, true⟩ : Bql.BqlBox).emitterLimit ≤
            (⟨-1, 50, .timeBased, 0, 0, none, none, false, true⟩ : Bql.BqlBox).emitCount) →
        (⟨⟨0, 1, 2, 3, []⟩, 9, false,
            [⟨4, 0, true⟩, ⟨5, 0, true⟩]⟩ : Bql.ProcessInput).planErr = false →
        (Bql.bqlProcess ⟨-1, 50, .timeBased, 0, 0, none, none, false, true⟩
              ⟨⟨0, 1, 2, 3, []⟩, 9, false, [⟨4, 0, true⟩, ⟨5, 0, true⟩]⟩).1 =
            Bql.tbStore ⟨0, 1, 2, 3, []⟩ 9 ⟨-1, 50, .timeBased, 0, 0, none, none, false, true⟩
              [⟨4, 0, true⟩, ⟨5, 0, true⟩] ∧
          ∀ h : ([⟨4, 0, true⟩, ⟨5, 0, true⟩] : List Bql.RowOracle) ≠ [],
            (Bql.bqlProcess ⟨-1, 50, .timeBased, 0, 0, none, none, false, true⟩
                  ⟨⟨0, 1, 2, 3, []⟩, 9, false, [⟨4, 0, true⟩, ⟨5, 0, true⟩]⟩).1.lastTuple =
                some (Bql.mkResultTuple ⟨0, 1, 2, 3, []⟩
                  (([⟨4, 0, true⟩, ⟨5, 0, true⟩] : List Bql.RowOracle).getLast h).data) ∧
              (Bql.bqlProcess ⟨-1, 50, .timeBased, 0, 0, none, none, false, true⟩
                  ⟨⟨0, 1, 2, 3, []⟩, 9, false, [⟨4, 0, true⟩, ⟨5, 0, true⟩]⟩).1.lastWriter =
                some 9) ∧
      (∀ evs : List Bql.BoxEvent,
        (Bql.runBox ⟨-1, 50, .timeBased, 0, 0, none, none, false, true⟩ evs).2.procAttempts = 0 ∧
          (Bql.runBox ⟨-1, 50, .timeBased, 0, 0, none, none, false, true⟩ evs).2.procWritten = []) :=
  time_based_process_never_writes ⟨-1, 50, .timeBased, 0, 0, none, none, false, true⟩
    ⟨⟨0, 1, 2, 3, []⟩, 9, false, [⟨4, 0, true⟩, ⟨5, 0, true⟩]⟩ rfl

namespace Bql

theorem processRows_emit_account (t : Tuple) (w : Nat) :
    ∀ (rows : List RowOracle) (b : BqlBox),
      0 ≤ b.emitterLimit → b.emitCount < b.emitterLimit →
      (processRows t w b rows).box.emitCount =
          b.emitCount + ((processRows t w b rows).written.length : Int) ∧
        (processRows t w b rows).box.emitCount ≤ b.emitterLimit := by
  intro rows
  induction rows with
  | nil =>
    intro b h0 hlt
    constructor
    · show b.emitCount = b.emitCount + (((0 : Nat) : Int))
      simp
    · exact le_of_lt hlt
  | cons row rest ih =>
    intro b h0 hlt
    simp only [processRows]
    split
    · exact ih _ h0 hlt
    · split
      · split
        · split
          · next hbrk =>
            constructor
            · show b.emitCount + 1 = b.emitCount + (((1 : Nat) : Int))
              simp
            · show b.emitCount + 1 ≤ b.emitterLimit
              omega
          · next hbrk =>
            have hlt2 : ({ b with
                genCount := if b.emitterSamplingType = .countBased then
                  b.genCount + 1 else b.genCount,
                emitCount := b.emitCount + 1 } : BqlBox).emitCount < b.emitterLimit := by
              rcases Decidable.em (b.emitCount + 1 < b.emitterLimit) with h | h
              · exact h
              · exact absurd ⟨h0, by omega⟩ hbrk
            have := ih { b with
                genCount := if b.emitterSamplingType = .countBased then
                  b.genCount + 1 else b.genCount,
                emitCount := b.emitCount + 1 } h0 hlt2
            constructor
            · rw [this.1]
              simp
              omega
            · exact this.2
        · exact ⟨by simp, le_of_lt hlt⟩
      · split
        · exact ⟨by simp, le_of_lt hlt⟩
        · exact ih _ h0 hlt

theorem bqlTick_limit (b : BqlBox) (ok : Bool) (hInv : LimitInv b) :
    LimitInv (bqlTick b ok).1 ∧
      (bqlTick b ok).1.emitterLimit = b.emitterLimit ∧
      (bqlTick b ok).1.emitCount =
        b.emitCount + ((bqlTick b ok).2.wrote.toList.length : Int) := by
  obtain ⟨h0, hle, hat, hnt⟩ := hInv
  simp only [bqlTick]
  split
  · exact ⟨⟨h0, hle, hat, hnt⟩, rfl, by simp⟩
  · next hstop =>
    split
    · next tup w' heq heq' =>
      have hlt : b.emitCount < b.emitterLimit := by
        rcases lt_or_eq_of_le hle with h | h
        · exact h
        · rcases hat h with hs | hl
          · exact absurd hs hstop
          · rw [heq] at hl; exact absurd hl (by simp)
      split
      · split
        · refine ⟨⟨h0, ?_, ?_, fun _ => rfl⟩, rfl, by simp⟩
          · simpa using hlt
          · intro _; exact Or.inl rfl
        · refine ⟨⟨h0, ?_, ?_, fun _ => rfl⟩, rfl, by simp⟩
          · simpa using hlt
          · intro _; exact Or.inl rfl
      · next hnlim =>
        refine ⟨⟨h0, ?_, ?_, fun _ => rfl⟩, rfl, by simp⟩
        · simpa using hlt
        · intro hEq
          exact absurd ⟨h0, le_of_eq hEq.symm⟩ hnlim
    · exact ⟨⟨h0, hle, hat, hnt⟩, rfl, by simp⟩

theorem bqlProcess_limit (b : BqlBox) (inp : ProcessInput) (hInv : LimitInv b) :
    LimitInv (bqlProcess b inp).1 ∧
      (bqlProcess b inp).1.emitterLimit = b.emitterLimit ∧
      (bqlProcess b inp).1.emitCount =
        b.emitCount + ((bqlProcess b inp).2.written.length : Int) := by
  obtain ⟨h0, hle, hat, hnt⟩ := hInv
  rcases Decidable.em (0 ≤ b.emitterLimit ∧ b.emitterLimit ≤ b.emitCount) with hg | hg
  · rw [show bqlProcess b inp = (b, ⟨[], 0, false, false⟩) from by
      simp only [bqlProcess]; rw [if_pos hg]]
    exact ⟨⟨h0, hle, hat, hnt⟩, rfl, by simp⟩
  · have hlt : b.emitCount < b.emitterLimit := by
      rcases Decidable.em (b.emitCount < b.emitterLimit) with h | h
      · exact h
      · exact absurd ⟨h0, by omega⟩ hg
    rcases Decidable.em (b.emitterSamplingType = .timeBased) with hty | hty
    · -- time-based: Process writes nothing and leaves the counters alone
      have htb := bqlProcess_tb b inp hty
      have hc := bqlProcess_const b inp
      refine ⟨⟨hc.1 ▸ h0, ?_, ?_, ?_⟩, hc.1, ?_⟩
      · rw [hc.1, htb.2.2.2.2.1]; exact hle
      · intro hEq
        rw [hc.1] at hEq
        rw [htb.2.2.2.2.1] at hEq
        omega
      · intro hN
        rw [hc.2.2.1] at hN
        exact absurd hty hN
      · rw [htb.2.2.2.2.1, htb.2.1]
        simp
    · -- other sampling: the row loop accounts writes into emitCount
      have hrows := processRows_emit_account inp.t inp.writer inp.rows b h0 hlt
      have hrc := processRows_const inp.t inp.writer inp.rows b
      have hrl := processRows_lastTuple inp.t inp.writer inp.rows b hty
      have hbody : (bqlProcess b inp).1.emitCount =
            (processRows inp.t inp.writer b inp.rows).box.emitCount ∧
          (bqlProcess b inp).1.emitterLimit =
            (processRows inp.t inp.writer b inp.rows).box.emitterLimit ∧
          (bqlProcess b inp).1.stopped =
            (processRows inp.t inp.writer b inp.rows).box.stopped ∧
          (bqlProcess b inp).1.lastTuple =
            (processRows inp.t inp.writer b inp.rows).box.lastTuple ∧
          (bqlProcess b inp).1.emitterSamplingType =
            (processRows inp.t inp.writer b inp.rows).box.emitterSamplingType ∧
          (bqlProcess b inp).2.written =
              (processRows inp.t inp.writer b inp.rows).written ∨
          (bqlProcess b inp).1 = b ∧ (bqlProcess b inp).2.written = [] := by
        simp only [bqlProcess]
        rw [if_neg hg]
        split
        · exact Or.inr ⟨rfl, rfl⟩
        · split
          · exact Or.inl ⟨rfl, rfl, rfl, rfl, rfl, rfl⟩
          · split
            · split
              · exact Or.inl ⟨rfl, rfl, rfl, rfl, rfl, rfl⟩
              · exact Or.inl ⟨rfl, rfl, rfl, rfl, rfl, rfl⟩
            · exact Or.inl ⟨rfl, rfl, rfl, rfl, rfl, rfl⟩
      rcases hbody with ⟨hec, hel, hst, hlu, hsty, hwr⟩ | ⟨hid, hwr⟩
      · refine ⟨⟨?_, ?_, ?_, ?_⟩, ?_, ?_⟩
        · rw [hel, hrc.1]; exact h0
        · rw [hec, hel, hrc.1]; exact hrows.2
        · intro hEq
          right
          rw [hlu, hrl.1]
          exact hnt hty
        · intro _
          rw [hlu, hrl.1]
          exact hnt hty
        · rw [hel, hrc.1]
        · rw [hec, hwr]
          exact hrows.1
      · rw [hid, hwr]
        exact ⟨⟨h0, hle, hat, hnt⟩, rfl, by simp⟩

theorem boxStep_limit (b : BqlBox) (ev : BoxEvent) (hInv : LimitInv b) :
    LimitInv (boxStep b ev).1 ∧
      (boxStep b ev).1.emitterLimit = b.emitterLimit ∧
      (boxStep b ev).1.emitCount =
        b.emitCount + (((boxStep b ev).2.procWritten.length : Int) +
          ((boxStep b ev).2.tickWrites.length : Int)) := by
  cases ev with
  | process inp =>
    have h := bqlProcess_limit b inp hInv
    refine ⟨h.1, h.2.1, ?_⟩
    show (bqlProcess b inp).1.emitCount =
      b.emitCount + (((bqlProcess b inp).2.written.length : Int) + ((0 : Nat) : Int))
    rw [h.2.2]
    simp
  | tick ok =>
    have h := bqlTick_limit b ok hInv
    refine ⟨h.1, h.2.1, ?_⟩
    show (bqlTick b ok).1.emitCount =
      b.emitCount + (((0 : Nat) : Int) + ((bqlTick b ok).2.wrote.toList.length : Int))
    rw [h.2.2]
    simp
  | terminate =>
    obtain ⟨h0, hle, hat, hnt⟩ := hInv
    refine ⟨⟨h0, hle, fun _ => Or.inl rfl, hnt⟩, rfl, ?_⟩
    show b.emitCount = b.emitCount + (((0 : Nat) : Int) + ((0 : Nat) : Int))
    simp

theorem runBox_limit (evs : List BoxEvent) :
    ∀ b : BqlBox, LimitInv b →
      LimitInv (runBox b evs).1 ∧
        (runBox b evs).1.emitterLimit = b.emitterLimit ∧
        (runBox b evs).1.emitCount =
          b.emitCount + (((runBox b evs).2.procWritten.length : Int) +
            ((runBox b evs).2.tickWrites.length : Int)) := by
  induction evs with
  | nil =>
    intro b h
    refine ⟨h, rfl, ?_⟩
    show b.emitCount = b.emitCount + (((0 : Nat) : Int) + ((0 : Nat) : Int))
    simp
  | cons ev rest ih =>
    intro b h
    have hs := boxStep_limit b ev h
    have hr := ih (boxStep b ev).1 hs.1
    simp only [runBox]
    refine ⟨hr.1, hr.2.1.trans hs.2.1, ?_⟩
    show (runBox (boxStep b ev).1 rest).1.emitCount =
      b.emitCount + ((((boxStep b ev).2.procWritten ++
          (runBox (boxStep b ev).1 rest).2.procWritten).length : Int) +
        (((boxStep b ev).2.tickWrites ++
          (runBox (boxStep b ev).1 rest).2.tickWrites).length : Int))
    rw [hr.2.2, hs.2.2]
    simp
    omega

end Bql

/-- Claim C3: for a box with a non-negative emitter limit L and freshly
initialized counters, over any sequence of `Process` calls, time-emitter
ticks and `Terminate` calls, the total number of tuples handed to a writer
(successful `Process` emissions plus time-emitter writes) is at most L; and
whenever `emitCount` has reached the limit, `Process` returns immediately
without writing or changing anything. -/
theorem emitter_limit_bound (b : Bql.BqlBox) (evs : List Bql.BoxEvent)
    (h0 : 0 ≤ b.emitterLimit) (hc : b.emitCount = 0) (hl : b.lastTuple = none) :
    (((Bql.runBox b evs).2.procWritten.length : Int) +
        ((Bql.runBox b evs).2.tickWrites.length : Int)) ≤ b.emitterLimit ∧
      (∀ (b' : Bql.BqlBox) (inp : Bql.ProcessInput),
        0 ≤ b'.emitterLimit → b'.emitterLimit ≤ b'.emitCount →
        Bql.bqlProcess b' inp = (b', ⟨[], 0, false, false⟩)) := by
  have hInv : Bql.LimitInv b :=
    ⟨h0, by rw [hc]; exact h0, fun _ => Or.inr hl, fun _ => hl⟩
  have hrun := Bql.runBox_limit evs b hInv
  constructor
  · have h1 := hrun.1.2.1
    rw [hrun.2.1] at h1
    rw [hrun.2.2, hc] at h1
    simpa using h1
  · intro b' inp hg1 hg2
    simp only [Bql.bqlProcess]
    rw [if_pos ⟨hg1, hg2⟩]

/-- Witness for C3: a concrete box with limit 2 and a trace of five rows. -/
theorem emitter_limit_bound_witness :
    (((Bql.runBox ⟨2, 0, .unspecified, 0, 0, none, none, false, true⟩
          [.process ⟨⟨0, 1, 2, 3, []⟩, 9, false,
            [⟨0, 0, true⟩, ⟨1, 0, true⟩, ⟨2, 0, true⟩, ⟨3, 0, true⟩, ⟨4, 0, true⟩]⟩]).2.procWritten.length : Int) +
        ((Bql.runBox ⟨2, 0, .unspecified, 0, 0, none, none, false, true⟩
          [.process ⟨⟨0, 1, 2, 3, []⟩, 9, false,
            [⟨0, 0, true⟩, ⟨1, 0, true⟩, ⟨2, 0, true⟩, ⟨3, 0, true⟩, ⟨4, 0, true⟩]⟩]).2.tickWrites.length : Int)) ≤
      (⟨2, 0, .unspecified, 0, 0, none, none, false, true⟩ : Bql.BqlBox).emitterLimit ∧
      (∀ (b' : Bql.BqlBox) (inp : Bql.ProcessInput),
        0 ≤ b'.emitterLimit → b'.emitterLimit ≤ b'.emitCount →
        Bql.bqlProcess b' inp = (b', ⟨[], 0, false, false⟩)) :=
  emitter_limit_bound ⟨2, 0, .unspecified, 0, 0, none, none, false, true⟩
    [.process ⟨⟨0, 1, 2, 3, []⟩, 9, false,
      [⟨0, 0, true⟩, ⟨1, 0, true⟩, ⟨2, 0, true⟩, ⟨3, 0, true⟩, ⟨4, 0, true⟩]⟩]
    (by decide) rfl rfl

namespace Bql

theorem processRows_mono (t : Tuple) (w : Nat) :
    ∀ (rows : List RowOracle) (b : BqlBox),
      b.emitCount ≤ (processRows t w b rows).box.emitCount := by
  intro rows
  induction rows with
  | nil => intro b; exact le_refl _
  | cons row rest ih =>
    intro b
    simp only [processRows]
    split
    · exact ih _
    · split
      · split
        · split
          · show b.emitCount ≤ b.emitCount + 1
            omega
          · calc b.emitCount ≤ b.emitCount + 1 := by omega
              _ ≤ _ := ih _
        · exact le_refl _
      · split
        · exact le_refl _
        · exact ih _

theorem boxStep_emit_mono (b : BqlBox) (ev : BoxEvent) :
    b.emitCount ≤ (boxStep b ev).1.emitCount := by
  cases ev with
  | process inp =>
    have h := processRows_mono inp.t inp.writer inp.rows b
    show b.emitCount ≤ (bqlProcess b inp).1.emitCount
    simp only [bqlProcess]
    split
    · exact le_refl _
    · split
      · exact le_refl _
      · split
        · exact h
        · split
          · split
            · exact h
            · exact h
          · exact h
  | tick ok =>
    show b.emitCount ≤ (bqlTick b ok).1.emitCount
    simp only [bqlTick]
    split
    · exact le_refl _
    · split
      · split
        · split
          · show b.emitCount ≤ b.emitCount + 1
            omega
          · show b.emitCount ≤ b.emitCount + 1
            omega
        · show b.emitCount ≤ b.emitCount + 1
          omega
      · exact le_refl _
  | terminate => exact le_refl _

theorem runBox_emit_mono (evs : List BoxEvent) :
    ∀ b : BqlBox, b.emitCount ≤ (runBox b evs).1.emitCount := by
  induction evs with
  | nil => intro b; exact le_refl _
  | cons ev rest ih =>
    intro b
    exact le_trans (boxStep_emit_mono b ev) (ih (boxStep b ev).1)

theorem processRows_count (t : Tuple) (w : Nat) :
    ∀ (rows : List RowOracle) (b : BqlBox),
      b.emitterSamplingType = .countBased →
      (∀ row ∈ rows, row.writeOk = true) →
      (b.emitterLimit < 0 ∨
        (processRows t w b rows).box.emitCount < b.emitterLimit) →
      (processRows t w b rows).written =
          expectedRows t b.emitterSampling b.genCount rows ∧
        (processRows t w b rows).box.genCount = b.genCount + (rows.length : Int) ∧
        (processRows t w b rows).aborted = false := by
  have hne : ¬(EmitterSamplingType.countBased = EmitterSamplingType.timeBased) := by
    simp
  intro rows
  induction rows with
  | nil =>
    intro b _ _ _
    exact ⟨rfl, by simp [processRows], rfl⟩
  | cons row rest ih =>
    intro b hty hwr hlim
    have hwrow : row.writeOk = true := hwr row (by simp)
    have hwrest : ∀ r ∈ rest, r.writeOk = true := fun r hr => hwr r (by simp [hr])
    obtain ⟨el, es, ety, gc, ec, plt, plw, st, rm⟩ := b
    simp only at hty
    subst hty
    simp only [processRows, expectedRows, hwrow, eq_self_iff_true, if_true,
      if_neg hne] at hlim ⊢
    rcases Decidable.em ((gc % es == 0) = true) with hsw | hsw
    · simp only [if_pos hsw] at hlim ⊢
      rcases Decidable.em ((0 : Int) ≤ el ∧ el ≤ ec + 1) with hbrk | hbrk
      · simp only [if_pos hbrk] at hlim
        rcases hlim with hneg | hfin
        · exact absurd hbrk.1 (by omega)
        · have hfin2 : ec + 1 < el := hfin
          exact absurd hbrk.2 (by omega)
      · simp only [if_neg hbrk] at hlim ⊢
        have hlim2 : (⟨el, es, .countBased, gc + 1, ec + 1, plt, plw, st, rm⟩ :
              BqlBox).emitterLimit < 0 ∨
            (processRows t w
                ⟨el, es, .countBased, gc + 1, ec + 1, plt, plw, st, rm⟩
                rest).box.emitCount <
              (⟨el, es, .countBased, gc + 1, ec + 1, plt, plw, st, rm⟩ :
                BqlBox).emitterLimit := by
          rcases hlim with hneg | hfin
          · exact Or.inl hneg
          · exact Or.inr hfin
        obtain ⟨ihw, ihg, iha⟩ :=
          ih ⟨el, es, .countBased, gc + 1, ec + 1, plt, plw, st, rm⟩ rfl hwrest hlim2
        refine ⟨?_, ?_, iha⟩
        · rw [ihw]
          rfl
        · rw [ihg]
          dsimp only
          push_cast [List.length_cons]
          ring
    · simp only [if_neg hsw] at hlim ⊢
      rcases Decidable.em ((0 : Int) ≤ el ∧ el ≤ ec) with hbrk | hbrk
      · simp only [if_pos hbrk] at hlim
        rcases hlim with hneg | hfin
        · exact absurd hbrk.1 (by omega)
        · have hfin2 : ec < el := hfin
          exact absurd hbrk.2 (by omega)
      · simp only [if_neg hbrk] at hlim ⊢
        have hlim2 : (⟨el, es, .countBased, gc + 1, ec, plt, plw, st, rm⟩ :
              BqlBox).emitterLimit < 0 ∨
            (processRows t w
                ⟨el, es, .countBased, gc + 1, ec, plt, plw, st, rm⟩
                rest).box.emitCount <
              (⟨el, es, .countBased, gc + 1, ec, plt, plw, st, rm⟩ :
                BqlBox).emitterLimit := by
          rcases hlim with hneg | hfin
          · exact Or.inl hneg
          · exact Or.inr hfin
        obtain ⟨ihw, ihg, iha⟩ :=
          ih ⟨el, es, .countBased, gc + 1, ec, plt, plw, st, rm⟩ rfl hwrest hlim2
        refine ⟨?_, ?_, iha⟩
        · rw [ihw]
          rfl
        · rw [ihg]
          dsimp only
          push_cast [List.length_cons]
          ring

end Bql

namespace Bql

theorem bqlProcess_lastTuple (b : BqlBox) (inp : ProcessInput)
    (hty : b.emitterSamplingType ≠ .timeBased) :
    (bqlProcess b inp).1.lastTuple = b.lastTuple := by
  have hrl := processRows_lastTuple inp.t inp.writer inp.rows b hty
  simp only [bqlProcess]
  split
  · rfl
  · split
    · rfl
    · split
      · exact hrl.1
      · split
        · split
          · exact hrl.1
          · exact hrl.1
        · exact hrl.1

theorem bqlProcess_main_proj (b : BqlBox) (inp : ProcessInput)
    (hg : ¬(0 ≤ b.emitterLimit ∧ b.emitterLimit ≤ b.emitCount))
    (hplan : inp.planErr = false) :
    (bqlProcess b inp).1.emitCount =
        (processRows inp.t inp.writer b inp.rows).box.emitCount ∧
      (bqlProcess b inp).1.genCount =
        (processRows inp.t inp.writer b inp.rows).box.genCount ∧
      (bqlProcess b inp).2.written =
        (processRows inp.t inp.writer b inp.rows).written := by
  simp only [bqlProcess, if_neg hg, hplan]
  rw [if_neg (by simp : ¬(false = true))]
  split
  · exact ⟨rfl, rfl, rfl⟩
  · split
    · split
      · exact ⟨rfl, rfl, rfl⟩
      · exact ⟨rfl, rfl, rfl⟩
    · exact ⟨rfl, rfl, rfl⟩

theorem bqlProcess_count (b : BqlBox) (inp : ProcessInput)
    (hty : b.emitterSamplingType = .countBased)
    (hplan : inp.planErr = false)
    (hwr : ∀ row ∈ inp.rows, row.writeOk = true)
    (hlim : b.emitterLimit < 0 ∨ (bqlProcess b inp).1.emitCount < b.emitterLimit) :
    (bqlProcess b inp).2.written =
        expectedRows inp.t b.emitterSampling b.genCount inp.rows ∧
      (bqlProcess b inp).1.genCount = b.genCount + (inp.rows.length : Int) := by
  have hg : ¬(0 ≤ b.emitterLimit ∧ b.emitterLimit ≤ b.emitCount) := by
    rcases hlim with hneg | hfin
    · intro h; omega
    · intro h
      have heq : (bqlProcess b inp).1 = b := by
        simp only [bqlProcess, if_pos h]
      rw [heq] at hfin
      omega
  have hproj := bqlProcess_main_proj b inp hg hplan
  have hlimR : b.emitterLimit < 0 ∨
      (processRows inp.t inp.writer b inp.rows).box.emitCount < b.emitterLimit := by
    rcases hlim with hneg | hfin
    · exact Or.inl hneg
    · rw [hproj.1] at hfin
      exact Or.inr hfin
  have hrows := processRows_count inp.t inp.writer inp.rows b hty hwr hlimR
  exact ⟨hproj.2.2.trans hrows.1, hproj.2.1.trans hrows.2.1⟩

theorem bqlTick_no_pending (b : BqlBox) (ok : Bool) (hlt : b.lastTuple = none) :
    bqlTick b ok = (b, ⟨none, false, false⟩) := by
  cases hst : b.stopped <;> cases hlw : b.lastWriter <;>
    simp [bqlTick, hlt, hst, hlw]

theorem runBox_count (evs : List BoxEvent) :
    ∀ b : BqlBox, b.emitterSamplingType = .countBased → b.lastTuple = none →
      cleanTrace evs = true →
      (b.emitterLimit < 0 ∨ (runBox b evs).1.emitCount < b.emitterLimit) →
      (runBox b evs).2.procWritten =
          expectedTrace b.emitterSampling b.genCount evs ∧
        (runBox b evs).1.genCount = b.genCount + (totalRows evs : Int) := by
  induction evs with
  | nil =>
    intro b _ _ _ _
    exact ⟨rfl, by simp [runBox, totalRows]⟩
  | cons ev rest ih =>
    intro b hty hlt hclean hlim
    have hcl1 : ev.clean = true := by
      have := hclean
      simp [cleanTrace, List.all_cons] at this
      exact this.1
    have hclrest : cleanTrace rest = true := by
      have := hclean
      simp [cleanTrace, List.all_cons] at this
      simp [cleanTrace]
      exact this.2
    have hfinal : (runBox b (ev :: rest)).1 = (runBox (boxStep b ev).1 rest).1 := rfl
    cases ev with
    | process inp =>
      have hplan : inp.planErr = false := by
        simp [BoxEvent.clean] at hcl1
        exact hcl1.1
      have hwr : ∀ row ∈ inp.rows, row.writeOk = true := by
        simp [BoxEvent.clean, List.all_eq_true] at hcl1
        exact hcl1.2
      have hstep1 : (boxStep b (.process inp)).1 = (bqlProcess b inp).1 := rfl
      have hlimP : b.emitterLimit < 0 ∨
          (bqlProcess b inp).1.emitCount < b.emitterLimit := by
        rcases hlim with hneg | hfin
        · exact Or.inl hneg
        · right
          rw [hfinal, hstep1] at hfin
          calc (bqlProcess b inp).1.emitCount
              ≤ (runBox (bqlProcess b inp).1 rest).1.emitCount :=
                runBox_emit_mono rest _
            _ < b.emitterLimit := hfin
      have hcount := bqlProcess_count b inp hty hplan hwr hlimP
      have hconst := bqlProcess_const b inp
      have hlast : (bqlProcess b inp).1.lastTuple = none :=
        (bqlProcess_lastTuple b inp (by rw [hty]; simp)).trans hlt
      have hih := ih (bqlProcess b inp).1
        (hconst.2.2.1.trans hty) hlast hclrest
        (by
          rcases hlim with hneg | hfin
          · exact Or.inl (by rw [hconst.1]; exact hneg)
          · right
            rw [hconst.1]
            rw [hfinal, hstep1] at hfin
            exact hfin)
      constructor
      · show (bqlProcess b inp).2.written ++
            (runBox (bqlProcess b inp).1 rest).2.procWritten =
          expectedTrace b.emitterSampling b.genCount (.process inp :: rest)
        rw [hcount.1, hih.1, hconst.2.1, hcount.2]
        rfl
      · show (runBox (bqlProcess b inp).1 rest).1.genCount =
          b.genCount + (totalRows (.process inp :: rest) : Int)
        rw [hih.2, hcount.2]
        show b.genCount + (inp.rows.length : Int) + (totalRows rest : Int) =
          b.genCount + ((inp.rows.length + totalRows rest : Nat) : Int)
        push_cast
        ring
    | tick ok =>
      have hstep : boxStep b (.tick ok) = (b, ⟨[], 0, [], 0, 0⟩) := by
        show (let s := bqlTick b ok
          ((s.1, ⟨[], 0, s.2.wrote.toList, if s.2.delivered then 1 else 0,
            if s.2.fired then 1 else 0⟩) : BqlBox × RunOut)) = (b, ⟨[], 0, [], 0, 0⟩)
        rw [bqlTick_no_pending b ok hlt]
        rfl
      have hih := ih b hty hlt hclrest
        (by
          rcases hlim with hneg | hfin
          · exact Or.inl hneg
          · right
            rw [hfinal, hstep] at hfin
            exact hfin)
      constructor
      · show (boxStep b (.tick ok)).2.procWritten ++
            (runBox (boxStep b (.tick ok)).1 rest).2.procWritten =
          expectedTrace b.emitterSampling b.genCount (.tick ok :: rest)
        rw [hstep]
        show [] ++ (runBox b rest).2.procWritten =
          expectedTrace b.emitterSampling b.genCount rest
        rw [List.nil_append, hih.1]
      · show (runBox (boxStep b (.tick ok)).1 rest).1.genCount =
          b.genCount + (totalRows (.tick ok :: rest) : Int)
        rw [hstep]
        exact hih.2
    | terminate =>
      have hih := ih (bqlTerminate b) hty hlt hclrest
        (by
          rcases hlim with hneg | hfin
          · exact Or.inl hneg
          · exact Or.inr hfin)
      constructor
      · show [] ++ (runBox (bqlTerminate b) rest).2.procWritten =
          expectedTrace b.emitterSampling b.genCount (.terminate :: rest)
        rw [List.nil_append, hih.1]
        rfl
      · show (runBox (bqlTerminate b) rest).1.genCount =
          b.genCount + (totalRows (.terminate :: rest) : Int)
        exact hih.2

end Bql

namespace Bql

theorem expectedRows_length (t : Tuple) (k : Int) :
    ∀ (rows : List RowOracle) (g : Int),
      (expectedRows t k g rows).length = countMult k g rows.length := by
  intro rows
  induction rows with
  | nil => intro g; rfl
  | cons row rest ih =>
    intro g
    simp only [expectedRows, countMult, List.length_append, List.length_cons]
    rw [ih (g + 1)]
    split <;> simp

theorem countMult_add (k : Int) :
    ∀ (m : Nat) (g : Int) (n : Nat),
      countMult k g (m + n) = countMult k g m + countMult k (g + (m : Int)) n := by
  intro m
  induction m with
  | zero => intro g n; simp [countMult]
  | succ m ih =>
    intro g n
    have hshift : m + 1 + n = (m + n) + 1 := by omega
    rw [hshift]
    show (if (g % k == 0) = true then 1 else 0) + countMult k (g + 1) (m + n) =
      ((if (g % k == 0) = true then 1 else 0) + countMult k (g + 1) m) +
        countMult k (g + ((m + 1 : Nat) : Int)) n
    rw [ih (g + 1) n]
    have : g + 1 + (m : Int) = g + ((m + 1 : Nat) : Int) := by push_cast; ring
    rw [this]
    omega

theorem expectedTrace_length (k : Int) :
    ∀ (evs : List BoxEvent) (g : Int),
      (expectedTrace k g evs).length = countMult k g (totalRows evs) := by
  intro evs
  induction evs with
  | nil => intro g; rfl
  | cons ev rest ih =>
    intro g
    cases ev with
    | process inp =>
      show (expectedRows inp.t k g inp.rows ++
          expectedTrace k (g + (inp.rows.length : Int)) rest).length =
        countMult k g (inp.rows.length + totalRows rest)
      rw [List.length_append, expectedRows_length, ih,
        countMult_add k inp.rows.length g (totalRows rest)]
    | tick ok => exact ih g
    | terminate => exact ih g

theorem ceil_div_step (K : Nat) (hK : 0 < K) (n : Nat) :
    (n + 1 + K - 1) / K = (n + K - 1) / K + (if n % K = 0 then 1 else 0) := by
  have h1 : n + 1 + K - 1 = n + K := by omega
  rw [h1, Nat.add_div_right n hK]
  rcases Decidable.em (n % K = 0) with hz | hz
  · rw [if_pos hz]
    obtain ⟨q, hq⟩ := Nat.dvd_of_mod_eq_zero hz
    subst hq
    rcases Nat.eq_zero_or_pos q with hq0 | hq0
    · subst hq0
      simp [Nat.div_eq_of_lt (by omega : K - 1 < K)]
    · have h2 : K * q + K - 1 = K * q + (K - 1) := by omega
      rw [h2, Nat.mul_add_div hK, Nat.div_eq_of_lt (by omega : K - 1 < K),
        Nat.mul_div_cancel_left q hK]
  · rw [if_neg hz]
    have hr := Nat.mod_lt n hK
    have hdm := Nat.div_add_mod n K
    have hexp : K * (n / K + 1) = K * (n / K) + K := by ring
    have h2 : n + K - 1 = K * (n / K + 1) + (n % K - 1) := by omega
    rw [h2, Nat.mul_add_div hK, Nat.div_eq_of_lt (by omega : n % K - 1 < K)]

theorem countMult_step (k : Int) (n : Nat) :
    countMult k 0 (n + 1) =
      countMult k 0 n + (if ((n : Int) % k == 0) = true then 1 else 0) := by
  rw [countMult_add k n 0 1]
  show countMult k 0 n + ((if (((0 : Int) + (n : Int)) % k == 0) = true then 1 else 0) +
    countMult k ((0 : Int) + (n : Int) + 1) 0) = _
  simp [countMult]

theorem countMult_ceil (k : Int) (hk : 0 < k) (n : Nat) :
    countMult k 0 n = (n + k.toNat - 1) / k.toNat := by
  have hK : 0 < k.toNat := by omega
  induction n with
  | zero =>
    show 0 = (0 + k.toNat - 1) / k.toNat
    rw [Nat.zero_add, Nat.div_eq_of_lt (by omega : k.toNat - 1 < k.toNat)]
  | succ n ih =>
    rw [countMult_step, ih, ceil_div_step k.toNat hK n]
    have hmod : (((n : Int) % k == 0) = true) ↔ n % k.toNat = 0 := by
      constructor
      · intro h
        have h2 : (n : Int) % k = 0 := by simpa using h
        have h3 : (n : Int) % ((k.toNat : Nat) : Int) = 0 := by
          rw [Int.toNat_of_nonneg (le_of_lt hk)]
          exact h2
        rw [← Int.natCast_mod] at h3
        exact_mod_cast h3
      · intro h
        have h3 : (n : Int) % ((k.toNat : Nat) : Int) = 0 := by
          rw [← Int.natCast_mod, h]
          rfl
        rw [Int.toNat_of_nonneg (le_of_lt hk)] at h3
        simpa using h3
    rcases Decidable.em (n % k.toNat = 0) with hz | hz
    · rw [if_pos hz, if_pos (hmod.mpr hz)]
    · rw [if_neg hz, if_neg (fun h => hz (hmod.mp h))]

end Bql

/-- Claim C4: for a freshly initialized box under count-based sampling with
modulus k > 0, over any clean trace (no plan errors, no write failures)
whose limit is never reached, the emitted tuples are exactly the generated
rows whose 0-based generation index i satisfies i % k == 0, `genCount` ends
at the number of generated rows (one increment per row), and the number of
emissions among the first n generated rows is ⌈n/k⌉. -/
theorem count_sampling_emissions (b : Bql.BqlBox) (evs : List Bql.BoxEvent)
    (hty : b.emitterSamplingType = .countBased) (hk : 0 < b.emitterSampling)
    (hg : b.genCount = 0) (hlt : b.lastTuple = none)
    (hclean : Bql.cleanTrace evs = true)
    (hlim : b.emitterLimit < 0 ∨ (Bql.runBox b evs).1.emitCount < b.emitterLimit) :
    (Bql.runBox b evs).2.procWritten = Bql.expectedTrace b.emitterSampling 0 evs ∧
      (Bql.runBox b evs).1.genCount = (Bql.totalRows evs : Int) ∧
      (Bql.runBox b evs).2.procWritten.length =
        (Bql.totalRows evs + b.emitterSampling.toNat - 1) / b.emitterSampling.toNat := by
  have h := Bql.runBox_count evs b hty hlt hclean hlim
  rw [hg] at h
  refine ⟨h.1, by rw [h.2]; simp, ?_⟩
  rw [h.1, Bql.expectedTrace_length, Bql.countMult_ceil b.emitterSampling hk]

/-- Witness for C4: sampling modulus 3 over ten generated rows emits rows
0, 3, 6, 9 — four emissions. -/
theorem count_sampling_emissions_witness :
    (Bql.runBox ⟨-1, 3, .countBased, 0, 0, none, none, false, true⟩
        [.process ⟨⟨0, 1, 2, 3, []⟩, 9, false,
          [⟨0, 0, true⟩, ⟨1, 0, true⟩, ⟨2, 0, true⟩, ⟨3, 0, true⟩]⟩,
         .process ⟨⟨0, 1, 2, 3, []⟩, 9, false,
          [⟨4, 0, true⟩, ⟨5, 0, true⟩, ⟨6, 0, true⟩, ⟨7, 0, true⟩, ⟨8, 0, true⟩,
            ⟨9, 0, true⟩]⟩]).2.procWritten =
      Bql.expectedTrace 3 0
        [.process ⟨⟨0, 1, 2, 3, []⟩, 9, false,
          [⟨0, 0, true⟩, ⟨1, 0, true⟩, ⟨2, 0, true⟩, ⟨3, 0, true⟩]⟩,
         .process ⟨⟨0, 1, 2, 3, []⟩, 9, false,
          [⟨4, 0, true⟩, ⟨5, 0, true⟩, ⟨6, 0, true⟩, ⟨7, 0, true⟩, ⟨8, 0, true⟩,
            ⟨9, 0, true⟩]⟩] ∧
      (Bql.runBox ⟨-1, 3, .countBased, 0, 0, none, none, false, true⟩
        [.process ⟨⟨0, 1, 2, 3, []⟩, 9, false,
          [⟨0, 0, true⟩, ⟨1, 0, true⟩, ⟨2, 0, true⟩, ⟨3, 0, true⟩]⟩,
         .process ⟨⟨0, 1, 2, 3, []⟩, 9, false,
          [⟨4, 0, true⟩, ⟨5, 0, true⟩, ⟨6, 0, true⟩, ⟨7, 0, true⟩, ⟨8, 0, true⟩,
            ⟨9, 0, true⟩]⟩]).1.genCount =
        ((Bql.totalRows
          [.process ⟨⟨0, 1, 2, 3, []⟩, 9, false,
            [⟨0, 0, true⟩, ⟨1, 0, true⟩, ⟨2, 0, true⟩, ⟨3, 0, true⟩]⟩,
           .process ⟨⟨0, 1, 2, 3, []⟩, 9, false,
            [⟨4, 0, true⟩, ⟨5, 0, true⟩, ⟨6, 0, true⟩, ⟨7, 0, true⟩, ⟨8, 0, true⟩,
              ⟨9, 0, true⟩]⟩] : Nat) : Int) ∧
      (Bql.runBox ⟨-1, 3, .countBased, 0, 0, none, none, false, true⟩
        [.process ⟨⟨0, 1, 2, 3, []⟩, 9, false,
          [⟨0, 0, true⟩, ⟨1, 0, true⟩, ⟨2, 0, true⟩, ⟨3, 0, true⟩]⟩,
         .process ⟨⟨0, 1, 2, 3, []⟩, 9, false,
          [⟨4, 0, true⟩, ⟨5, 0, true⟩, ⟨6, 0, true⟩, ⟨7, 0, true⟩, ⟨8, 0, true⟩,
            ⟨9, 0, true⟩]⟩]).2.procWritten.length =
        (Bql.totalRows
          [.process ⟨⟨0, 1, 2, 3, []⟩, 9, false,
            [⟨0, 0, true⟩, ⟨1, 0, true⟩, ⟨2, 0, true⟩, ⟨3, 0, true⟩]⟩,
           .process ⟨⟨0, 1, 2, 3, []⟩, 9, false,
            [⟨4, 0, true⟩, ⟨5, 0, true⟩, ⟨6, 0, true⟩, ⟨7, 0, true⟩, ⟨8, 0, true⟩,
              ⟨9, 0, true⟩]⟩] + (3 : Int).toNat - 1) / (3 : Int).toNat :=
  count_sampling_emissions ⟨-1, 3, .countBased, 0, 0, none, none, false, true⟩
    [.process ⟨⟨0, 1, 2, 3, []⟩, 9, false,
      [⟨0, 0, true⟩, ⟨1, 0, true⟩, ⟨2, 0, true⟩, ⟨3, 0, true⟩]⟩,
     .process ⟨⟨0, 1, 2, 3, []⟩, 9, false,
      [⟨4, 0, true⟩, ⟨5, 0, true⟩, ⟨6, 0, true⟩, ⟨7, 0, true⟩, ⟨8, 0, true⟩,
        ⟨9, 0, true⟩]⟩]
    rfl (by decide) rfl rfl (by decide) (Or.inl (by decide))

namespace Bql

theorem nodeInput_nodes (t : DynTopology) (node ref label : String) :
    (t.nodeInput node ref label).1.sources = t.sources ∧
      (t.nodeInput node ref label).1.boxes = t.boxes ∧
      (t.nodeInput node ref label).1.sinks = t.sinks := by
  simp only [DynTopology.nodeInput]
  split
  · exact ⟨rfl, rfl, rfl⟩
  · exact ⟨rfl, rfl, rfl⟩
theorem nodeInput_ok (t : DynTopology) (node ref label : String)
    (h : (t.nodeInput node ref label).2 = none) :
    (t.nodeInput node ref label).1 =
      { t with edges := t.edges ++ [(ref, node, label)] } := by
  simp only [DynTopology.nodeInput] at h ⊢
  split at h
  · next hcond => rw [if_pos hcond]
  · next hcond => simp at h

theorem connectRels_nodes (boxName : String) :
    ∀ (rels : List AliasedStreamWindowAST) (t : DynTopology),
      (connectRels boxName t rels).1.sources = t.sources ∧
        (connectRels boxName t rels).1.boxes = t.boxes ∧
        (connectRels boxName t rels).1.sinks = t.sinks := by
  intro rels
  induction rels with
  | nil => intro t; exact ⟨rfl, rfl, rfl⟩
  | cons rel rest ih =>
    intro t
    simp only [connectRels]
    have hn := nodeInput_nodes t boxName rel.name rel.name
    split
    · next heq =>
      have := ih (t.nodeInput boxName rel.name rel.name).1
      exact ⟨this.1.trans hn.1, this.2.1.trans hn.2.1, this.2.2.trans hn.2.2⟩
    · exact hn

theorem removeNode_gone (t : DynTopology) (name : String) :
    name ∉ ((t.removeNode name).boxes.map Prod.fst) ∧
      ∀ e ∈ (t.removeNode name).edges, e.1 ≠ name ∧ e.2.1 ≠ name := by
  constructor
  · intro hmem
    simp only [DynTopology.removeNode, List.mem_map, List.mem_filter] at hmem
    obtain ⟨b, ⟨_, hb⟩, hb1⟩ := hmem
    rw [hb1] at hb
    simp at hb
  · intro e he
    simp only [DynTopology.removeNode, List.mem_filter] at he
    have := he.2
    constructor
    · intro h1; rw [h1] at this; simp at this
    · intro h2; rw [h2] at this; simp at this

theorem addCreateStream_ok (t : DynTopology) (stmt : CreateStreamAsSelectStmt)
    (nm : String) (h : (addCreateStream t stmt).2 = .ok nm) :
    nm = stmt.name ∧ (stmt.name, stmt) ∈ (addCreateStream t stmt).1.boxes := by
  simp only [addCreateStream] at h ⊢
  split at h
  · simp at h
  · next hfree =>
    rw [if_neg hfree]
    split at h
    · next heq =>
      have hb := (connectRels_nodes stmt.name stmt.relations
        { t with boxes := t.boxes ++ [(stmt.name, stmt)] }).2.1
      have hmem : (stmt.name, stmt) ∈ (connectRels stmt.name
          { t with boxes := t.boxes ++ [(stmt.name, stmt)] } stmt.relations).1.boxes := by
        rw [hb]; simp
      exact ⟨by simpa using h.symm, hmem⟩
    · simp at h

end Bql

/-- Claim C8: `AddStmt` on an `INSERT INTO <sink> SELECT ...` statement
rejects — returning an error and leaving the topology untouched — any
statement whose relations carry a RANGE clause or that specifies an
emitter; on success it registers a temporary stream whose statement has
the RSTREAM emitter and `[RANGE 1 TUPLES]` on every relation (same
relation names, same projections), and connects that stream as an input of
the named sink. -/
theorem insert_into_select_desugars (t : Bql.DynTopology) (tmpId : Int)
    (stmt : Bql.InsertIntoSelectStmt) :
    ((∃ rel ∈ stmt.relations, rel.unit ≠ .unspecifiedIntervalUnit) →
        (Bql.addInsertInto t tmpId stmt).1 = t ∧
          ∃ e, (Bql.addInsertInto t tmpId stmt).2 = .error e) ∧
      (stmt.emitterType ≠ .unspecifiedEmitter →
        (Bql.addInsertInto t tmpId stmt).1 = t ∧
          ∃ e, (Bql.addInsertInto t tmpId stmt).2 = .error e) ∧
      (∀ name, (Bql.addInsertInto t tmpId stmt).2 = .ok name →
        ∃ tmpStmt, (name, tmpStmt) ∈ (Bql.addInsertInto t tmpId stmt).1.boxes ∧
          tmpStmt.emitterType = .rstream ∧
          (∀ rel ∈ tmpStmt.relations, rel.value = 1 ∧ rel.unit = .tuples) ∧
          tmpStmt.projections = stmt.projections ∧
          tmpStmt.relations.map (fun rel => rel.name) =
            stmt.relations.map (fun rel => rel.name) ∧
          (name, stmt.sink, "output") ∈ (Bql.addInsertInto t tmpId stmt).1.edges) := by
  refine ⟨?_, ?_, ?_⟩
  · intro hrange
    simp only [Bql.addInsertInto]
    split
    · exact ⟨rfl, _, rfl⟩
    · have hany : (stmt.relations.any
          (fun rel => !(rel.unit == .unspecifiedIntervalUnit))) = true := by
        rw [List.any_eq_true]
        obtain ⟨rel, hmem, hunit⟩ := hrange
        exact ⟨rel, hmem, by simpa using hunit⟩
      rw [if_pos hany]
      exact ⟨rfl, _, rfl⟩
  · intro hemit
    simp only [Bql.addInsertInto]
    split
    · exact ⟨rfl, _, rfl⟩
    · split
      · exact ⟨rfl, _, rfl⟩
      · rw [if_pos (by simpa using hemit)]
        exact ⟨rfl, _, rfl⟩
  · intro name h
    simp only [Bql.addInsertInto] at h ⊢
    split at h
    · simp at h
    · next hsink =>
      rw [if_neg hsink]
      split at h
      · simp at h
      · next hany =>
        rw [if_neg hany]
        split at h
        · next hemit => simp at h
        · next hemit =>
          rw [if_neg hemit]
          split at h
          · next e ha => simp at h
          · next nm ha =>
            have hok := Bql.addCreateStream_ok t _ nm ha
            split at h
            · next hsi =>
              have hname : name = "sensorbee_tmp_" ++ toString tmpId := by
                simpa using h.symm
              subst hname
              have hni := Bql.nodeInput_ok _ stmt.sink
                ("sensorbee_tmp_" ++ toString tmpId) "output" hsi
              refine ⟨⟨"sensorbee_tmp_" ++ toString tmpId, .rstream,
                stmt.projections,
                stmt.relations.map (fun rel => { rel with value := 1, unit := Bql.IntervalUnit.tuples }),
                stmt.filter, stmt.grouping, stmt.having⟩, ?_, rfl, ?_, rfl, ?_, ?_⟩
              · show _ ∈ (Bql.DynTopology.nodeInput _ stmt.sink _ "output").1.boxes
                rw [hni]
                show _ ∈ (Bql.addCreateStream t _).1.boxes
                exact hok.2
              · intro rel hrel
                simp only [List.mem_map] at hrel
                obtain ⟨orig, _, horig⟩ := hrel
                rw [← horig]
                exact ⟨rfl, rfl⟩
              · simp
              · show _ ∈ (Bql.DynTopology.nodeInput _ stmt.sink _ "output").1.edges
                rw [hni]
                simp
            · next e hsi => simp at h

/-- Claim C10: when `AddStmt` fails while wiring a `CREATE STREAM` (a
relation input fails) or while connecting the temporary stream of an
`INSERT INTO` to its sink, the just-added box is removed again: the
resulting topology has no box under that name and no edge incident to it,
so a failed statement never leaves a partially wired stream node behind. -/
theorem failed_stmt_removes_node (t : Bql.DynTopology) (tmpId : Int)
    (cstmt : Bql.CreateStreamAsSelectStmt) (istmt : Bql.InsertIntoSelectStmt)
    (hc : cstmt.name ∉ t.nodeNames)
    (hi : ("sensorbee_tmp_" ++ toString tmpId) ∉ t.nodeNames) :
    (∀ e, (Bql.addCreateStream t cstmt).2 = .error e →
        cstmt.name ∉ ((Bql.addCreateStream t cstmt).1.boxes.map Prod.fst) ∧
        ∀ edge ∈ (Bql.addCreateStream t cstmt).1.edges,
          edge.1 ≠ cstmt.name ∧ edge.2.1 ≠ cstmt.name) ∧
      (∀ e, (Bql.addInsertInto t tmpId istmt).2 = .error e →
        ("sensorbee_tmp_" ++ toString tmpId) ∉
          ((Bql.addInsertInto t tmpId istmt).1.boxes.map Prod.fst)) := by
  have hgen : ∀ (t' : Bql.DynTopology) (stmt : Bql.CreateStreamAsSelectStmt),
      stmt.name ∉ t'.nodeNames →
      ∀ e, (Bql.addCreateStream t' stmt).2 = .error e →
        stmt.name ∉ ((Bql.addCreateStream t' stmt).1.boxes.map Prod.fst) ∧
        ∀ edge ∈ (Bql.addCreateStream t' stmt).1.edges,
          edge.1 ≠ stmt.name ∧ edge.2.1 ≠ stmt.name := by
    intro t' stmt hfree e herr
    have hfree' : ¬(t'.nodeNames.contains stmt.name = true) := by
      intro hcon
      exact hfree (by simpa using hcon)
    simp only [Bql.addCreateStream, if_neg hfree'] at herr ⊢
    split at herr
    · simp at herr
    · have hg := Bql.removeNode_gone
        (Bql.connectRels stmt.name
          { t' with boxes := t'.boxes ++ [(stmt.name, stmt)] } stmt.relations).1
        stmt.name
      exact ⟨hg.1, hg.2⟩
  refine ⟨hgen t cstmt hc, ?_⟩
  intro e herr
  simp only [Bql.addInsertInto] at herr ⊢
  split at herr
  · next hsink =>
    rw [if_pos (by assumption)]
    intro hmem
    apply hi
    simp only [Bql.DynTopology.nodeNames, List.mem_append]
    left; right
    simpa using hmem
  · next hsink =>
    rw [if_neg hsink]
    split at herr
    · next hany =>
      rw [if_pos hany]
      intro hmem
      apply hi
      simp only [Bql.DynTopology.nodeNames, List.mem_append]
      left; right
      simpa using hmem
    · next hany =>
      rw [if_neg hany]
      split at herr
      · next hemit =>
        rw [if_pos hemit]
        intro hmem
        apply hi
        simp only [Bql.DynTopology.nodeNames, List.mem_append]
        left; right
        simpa using hmem
      · next hemit =>
        rw [if_neg hemit]
        split at herr
        · next e2 ha =>
          exact (hgen t _ (by simpa using hi) e2 ha).1
        · next nm ha =>
          split at herr
          · next hsi => simp at herr
          · next e2 hsi =>
            exact (Bql.removeNode_gone _ _).1

/-- Witness for C8: a RANGE-carrying statement and an emitter-carrying
statement are rejected with the topology unchanged, and a plain statement
desugars into a temporary RSTREAM/RANGE-1-TUPLES stream wired to the sink. -/
theorem insert_into_select_desugars_witness :
    ((Bql.addInsertInto ⟨["src"], [], ["snk"], []⟩ 1
          ⟨"snk", .unspecifiedEmitter, 7, [⟨"src", 5, .tuples⟩], 0, 0, 0⟩).1 =
        ⟨["src"], [], ["snk"], []⟩ ∧
      ∃ e, (Bql.addInsertInto ⟨["src"], [], ["snk"], []⟩ 1
          ⟨"snk", .unspecifiedEmitter, 7, [⟨"src", 5, .tuples⟩], 0, 0, 0⟩).2 =
        .error e) ∧
      ((Bql.addInsertInto ⟨["src"], [], ["snk"], []⟩ 2
            ⟨"snk", .rstream, 7, [], 0, 0, 0⟩).1 = ⟨["src"], [], ["snk"], []⟩ ∧
        ∃ e, (Bql.addInsertInto ⟨["src"], [], ["snk"], []⟩ 2
            ⟨"snk", .rstream, 7, [], 0, 0, 0⟩).2 = .error e) ∧
      (∃ tmpStmt, ("sensorbee_tmp_3", tmpStmt) ∈
          (Bql.addInsertInto ⟨["src"], [], ["snk"], []⟩ 3
            ⟨"snk", .unspecifiedEmitter, 7, [⟨"src", 0, .unspecifiedIntervalUnit⟩],
              0, 0, 0⟩).1.boxes ∧
        tmpStmt.emitterType = .rstream ∧
        (∀ rel ∈ tmpStmt.relations, rel.value = 1 ∧ rel.unit = .tuples) ∧
        tmpStmt.projections =
          (⟨"snk", .unspecifiedEmitter, 7, [⟨"src", 0, .unspecifiedIntervalUnit⟩],
            0, 0, 0⟩ : Bql.InsertIntoSelectStmt).projections ∧
        tmpStmt.relations.map (fun rel => rel.name) =
          (⟨"snk", .unspecifiedEmitter, 7, [⟨"src", 0, .unspecifiedIntervalUnit⟩],
            0, 0, 0⟩ : Bql.InsertIntoSelectStmt).relations.map (fun rel => rel.name) ∧
        ("sensorbee_tmp_3", "snk", "output") ∈
          (Bql.addInsertInto ⟨["src"], [], ["snk"], []⟩ 3
            ⟨"snk", .unspecifiedEmitter, 7, [⟨"src", 0, .unspecifiedIntervalUnit⟩],
              0, 0, 0⟩).1.edges) :=
  ⟨(insert_into_select_desugars ⟨["src"], [], ["snk"], []⟩ 1
      ⟨"snk", .unspecifiedEmitter, 7, [⟨"src", 5, .tuples⟩], 0, 0, 0⟩).1
      ⟨⟨"src", 5, .tuples⟩, by decide, by decide⟩,
    (insert_into_select_desugars ⟨["src"], [], ["snk"], []⟩ 2
      ⟨"snk", .rstream, 7, [], 0, 0, 0⟩).2.1 (by decide),
    (insert_into_select_desugars ⟨["src"], [], ["snk"], []⟩ 3
      ⟨"snk", .unspecifiedEmitter, 7, [⟨"src", 0, .unspecifiedIntervalUnit⟩],
        0, 0, 0⟩).2.2 "sensorbee_tmp_3" rfl⟩

/-- Witness for C10: a stream whose relation reference is unknown fails and
leaves no box or incident edge behind; the same holds for the temporary
stream of a failed INSERT INTO. -/
theorem failed_stmt_removes_node_witness :
    (∀ e, (Bql.addCreateStream ⟨["src"], [], ["snk"], []⟩
          ⟨"box1", .rstream, 0, [⟨"nosuch", 0, .unspecifiedIntervalUnit⟩],
            0, 0, 0⟩).2 = .error e →
        "box1" ∉ ((Bql.addCreateStream ⟨["src"], [], ["snk"], []⟩
          ⟨"box1", .rstream, 0, [⟨"nosuch", 0, .unspecifiedIntervalUnit⟩],
            0, 0, 0⟩).1.boxes.map Prod.fst) ∧
        ∀ edge ∈ (Bql.addCreateStream ⟨["src"], [], ["snk"], []⟩
          ⟨"box1", .rstream, 0, [⟨"nosuch", 0, .unspecifiedIntervalUnit⟩],
            0, 0, 0⟩).1.edges,
          edge.1 ≠ "box1" ∧ edge.2.1 ≠ "box1") ∧
      (∀ e, (Bql.addInsertInto ⟨["src"], [], ["snk"], []⟩ 4
          ⟨"snk", .unspecifiedEmitter, 0, [⟨"nosuch", 0, .unspecifiedIntervalUnit⟩],
            0, 0, 0⟩).2 = .error e →
        ("sensorbee_tmp_" ++ toString (4 : Int)) ∉
          ((Bql.addInsertInto ⟨["src"], [], ["snk"], []⟩ 4
            ⟨"snk", .unspecifiedEmitter, 0, [⟨"nosuch", 0, .unspecifiedIntervalUnit⟩],
              0, 0, 0⟩).1.boxes.map Prod.fst)) :=
  failed_stmt_removes_node ⟨["src"], [], ["snk"], []⟩ 4
    ⟨"box1", .rstream, 0, [⟨"nosuch", 0, .unspecifiedIntervalUnit⟩], 0, 0, 0⟩
    ⟨"snk", .unspecifiedEmitter, 0, [⟨"nosuch", 0, .unspecifiedIntervalUnit⟩], 0, 0, 0⟩
    (by decide) (by decide)
namespace Core

theorem detectCycleLoop_none_gray (adj : String → List String) (fuel : Nat)
    (node : String)
    (hP : ∀ n v v', detectCycle adj fuel n v = (v', none) → v'.gray = v.gray) :
    ∀ (cs : List String) (v v' : Visit),
      detectCycleLoop adj fuel node cs v = (v', none) → v'.gray = v.gray := by
  intro cs
  induction cs with
  | nil =>
    intro v v' h
    simp only [detectCycleLoop] at h
    injection h with h1 _
    rw [← h1]
  | cons c rest ih =>
    intro v v' h
    simp only [detectCycleLoop] at h
    split at h
    · split at h <;> simp at h
    · next v1 heq => exact (ih v1 v' h).trans (hP c v v1 heq)

theorem detectCycle_none_gray (adj : String → List String) :
    ∀ (fuel : Nat) (n : String) (v v' : Visit),
      detectCycle adj fuel n v = (v', none) → v'.gray = v.gray := by
  intro fuel
  induction fuel with
  | zero =>
    intro n v v' h
    simp only [detectCycle] at h
    injection h with h1 _
    rw [← h1]
  | succ f ih =>
    intro n v v' h
    simp only [detectCycle] at h
    split at h
    · simp at h
    · split at h
      · injection h with h1 _
        rw [← h1]
      · split at h
        · simp at h
        · next v2 heq =>
          injection h with h1 _
          rw [← h1]
          show v2.gray.erase n = v.gray
          have hg := detectCycleLoop_none_gray adj f n ih (adj n) _ _ heq
          rw [hg]
          exact List.erase_cons_head n v.gray

theorem detectCycleLoop_marked (adj : String → List String) (fuel : Nat)
    (node : String)
    (hP : ∀ n v v' r, detectCycle adj fuel n v = (v', r) →
      ∀ x, v.marked x → v'.marked x) :
    ∀ (cs : List String) (v v' : Visit) (r : Option (List String)),
      detectCycleLoop adj fuel node cs v = (v', r) →
      ∀ x, v.marked x → v'.marked x := by
  intro cs
  induction cs with
  | nil =>
    intro v v' r h x hx
    simp only [detectCycleLoop] at h
    injection h with h1 _
    rw [← h1]
    exact hx
  | cons c rest ih =>
    intro v v' r h x hx
    simp only [detectCycleLoop] at h
    split at h
    · next v1 path heq =>
      have hx1 := hP c v v1 _ heq x hx
      split at h <;> (injection h with h1 _; rw [← h1]; exact hx1)
    · next v1 heq => exact ih v1 v' r h x (hP c v v1 _ heq x hx)

theorem detectCycle_marked (adj : String → List String) :
    ∀ (fuel : Nat) (n : String) (v v' : Visit) (r : Option (List String)),
      detectCycle adj fuel n v = (v', r) → ∀ x, v.marked x → v'.marked x := by
  intro fuel
  induction fuel with
  | zero =>
    intro n v v' r h x hx
    simp only [detectCycle] at h
    injection h with h1 _
    rw [← h1]
    exact hx
  | succ f ih =>
    intro n v v' r h x hx
    simp only [detectCycle] at h
    split at h
    · injection h with h1 _; rw [← h1]; exact hx
    · split at h
      · injection h with h1 _; rw [← h1]; exact hx
      · have hx1 : Visit.marked { v with gray := n :: v.gray } x := by
          rcases hx with hg | hb
          · exact Or.inl (List.mem_cons_of_mem _ hg)
          · exact Or.inr hb
        split at h
        · next v2 p heq =>
          have hx2 := detectCycleLoop_marked adj f n ih (adj n) _ _ _ heq x hx1
          injection h with h1 _; rw [← h1]; exact hx2
        · next v2 heq =>
          have hx2 := detectCycleLoop_marked adj f n ih (adj n) _ _ _ heq x hx1
          injection h with h1 _
          rw [← h1]
          rcases hx2 with hg | hb
          · rcases Decidable.em (x = n) with he | he
            · exact Or.inr (he ▸ List.mem_cons_self _ _)
            · exact Or.inl ((List.mem_erase_of_ne he).mpr hg)
          · exact Or.inr (List.mem_cons_of_mem _ hb)

end Core

namespace Core

theorem detectCycleLoop_some_shape (adj : String → List String) (fuel : Nat)
    (node : String)
    (hP : ∀ (n : String) (v v' : Visit) (p : List String),
      detectCycle adj fuel n v = (v', some p) →
      p ≠ [] ∧ List.Chain' (fun a b => b ∈ adj a) p.reverse ∧
      ((1 < p.length ∧ p.head? = p.getLast?) ∨
        (p.getLast? = some n ∧ ∃ g ∈ v.gray, p.head? = some g))) :
    ∀ (cs : List String) (v v' : Visit) (p : List String),
      (∀ c ∈ cs, c ∈ adj node) →
      detectCycleLoop adj fuel node cs v = (v', some p) →
      p ≠ [] ∧ List.Chain' (fun a b => b ∈ adj a) p.reverse ∧
      ((1 < p.length ∧ p.head? = p.getLast?) ∨
        (2 ≤ p.length ∧ p.getLast? = some node ∧ ∃ g ∈ v.gray, p.head? = some g)) := by
  intro cs
  induction cs with
  | nil =>
    intro v v' p _ h
    simp only [detectCycleLoop] at h
    simp at h
  | cons c rest ih =>
    intro v v' p hcs h
    simp only [detectCycleLoop] at h
    split at h
    · next v1 q heq =>
      obtain ⟨hqne, hqch, hqsh⟩ := hP c v v1 q heq
      split at h
      · next hcl =>
        injection h with h1 h2
        injection h2 with h2
        subst h2
        exact ⟨hqne, hqch, Or.inl hcl⟩
      · next hcl =>
        injection h with h1 h2
        injection h2 with h2
        subst h2
        rcases hqsh with hclosed | ⟨hlast, g, hg, hhead⟩
        · exact absurd hclosed hcl
        refine ⟨by simp, ?_, Or.inr ⟨?_, ?_, g, hg, ?_⟩⟩
        · rw [List.reverse_append, List.reverse_singleton, List.singleton_append]
          rw [List.chain'_cons']
          refine ⟨?_, hqch⟩
          intro b hb
          rw [List.head?_reverse, hlast, Option.mem_some_iff] at hb
          subst hb
          exact hcs c (List.mem_cons_self _ _)
        · have : q.length ≠ 0 := fun hz => hqne (List.eq_nil_of_length_eq_zero hz)
          simp [List.length_append]
          omega
        · exact List.getLast?_concat q
        · rw [List.head?_append, hhead]
          rfl
    · next v1 heq =>
      have hg : v1.gray = v.gray := detectCycle_none_gray adj fuel c v v1 heq
      have hrest := ih v1 v' p (fun d hd => hcs d (List.mem_cons_of_mem _ hd)) h
      rw [hg] at hrest
      exact hrest

theorem detectCycle_some_shape (adj : String → List String) :
    ∀ (fuel : Nat) (n : String) (v v' : Visit) (p : List String),
      detectCycle adj fuel n v = (v', some p) →
      p ≠ [] ∧ List.Chain' (fun a b => b ∈ adj a) p.reverse ∧
      ((1 < p.length ∧ p.head? = p.getLast?) ∨
        (p.getLast? = some n ∧ ∃ g ∈ v.gray, p.head? = some g)) := by
  intro fuel
  induction fuel with
  | zero =>
    intro n v v' p h
    simp only [detectCycle] at h
    simp at h
  | succ f ih =>
    intro n v v' p h
    simp only [detectCycle] at h
    split at h
    · next hgray =>
      injection h with h1 h2
      injection h2 with h2
      subst h2
      exact ⟨by simp, by simp, Or.inr ⟨rfl, n, hgray, rfl⟩⟩
    · split at h
      · simp at h
      · split at h
        · next v2 q heq =>
          injection h with h1 h2
          injection h2 with h2
          subst h2
          subst h1
          obtain ⟨hne, hch, hsh⟩ :=
            detectCycleLoop_some_shape adj f n ih (adj n) _ _ _ (fun c hc => hc) heq
          rcases hsh with hcl | ⟨hlen, hlast, g, hg, hhead⟩
          · exact ⟨hne, hch, Or.inl hcl⟩
          · have hg' : g ∈ n :: v.gray := hg
            rcases List.mem_cons.mp hg' with rfl | hgv
            · refine ⟨hne, hch, Or.inl ⟨by omega, ?_⟩⟩
              rw [hhead, hlast]
            · exact ⟨hne, hch, Or.inr ⟨hlast, g, hgv, hhead⟩⟩
        · simp at h

end Core

namespace Core

theorem black_reach (adj : String → List String) (v : Visit)
    (hBC : blackClosed adj v) {a b : String}
    (hab : Relation.ReflTransGen (fun x y => y ∈ adj x) a b)
    (ha : a ∈ v.black) : b ∈ v.black := by
  induction hab with
  | refl => exact ha
  | tail _ hstep ih => exact hBC _ ih _ hstep

theorem unmarkedCount_mono (U : Finset String) (v w : Visit)
    (h : ∀ x, v.marked x → w.marked x) :
    unmarkedCount U w ≤ unmarkedCount U v := by
  refine Finset.card_le_card ?_
  intro x hx
  rw [Finset.mem_filter] at hx ⊢
  rcases hx with ⟨hU, hgw, hbw⟩
  refine ⟨hU, ?_, ?_⟩
  · intro hgv
    rcases h x (Or.inl hgv) with hg | hb
    · exact hgw hg
    · exact hbw hb
  · intro hbv
    rcases h x (Or.inr hbv) with hg | hb
    · exact hgw hg
    · exact hbw hb

theorem unmarkedCount_push (U : Finset String) (v : Visit) (n : String)
    (hU : n ∈ U) (hg : n ∉ v.gray) (hb : n ∉ v.black) :
    unmarkedCount U { v with gray := n :: v.gray } < unmarkedCount U v := by
  have hsub : U.filter (fun x => ¬ x ∈ (n :: v.gray) ∧ ¬ x ∈ v.black) ⊆
      U.filter (fun x => ¬ x ∈ v.gray ∧ ¬ x ∈ v.black) := by
    intro x hx
    rw [Finset.mem_filter] at hx ⊢
    exact ⟨hx.1, fun hg' => hx.2.1 (List.mem_cons_of_mem _ hg'), hx.2.2⟩
  have hn1 : n ∈ U.filter (fun x => ¬ x ∈ v.gray ∧ ¬ x ∈ v.black) := by
    rw [Finset.mem_filter]
    exact ⟨hU, hg, hb⟩
  have hn2 : n ∉ U.filter (fun x => ¬ x ∈ (n :: v.gray) ∧ ¬ x ∈ v.black) := by
    rw [Finset.mem_filter]
    intro hx
    exact hx.2.1 (List.mem_cons_self _ _)
  exact Finset.card_lt_card ((Finset.ssubset_iff_of_subset hsub).mpr ⟨n, hn1, hn2⟩)

theorem detectCycleLoop_none_complete (adj : String → List String)
    (U : Finset String) (fuel : Nat) (node : String)
    (hP : ∀ (n : String) (v v' : Visit),
      n ∈ U → unmarkedCount U v < fuel → v.grayFresh → blackClosed adj v →
      blackAcyclic adj v → detectCycle adj fuel n v = (v', none) →
      n ∈ v'.black ∧ (∀ x ∈ v.black, x ∈ v'.black) ∧ v'.grayFresh ∧
      blackClosed adj v' ∧ blackAcyclic adj v' ∧
      unmarkedCount U v' ≤ unmarkedCount U v) :
    ∀ (cs : List String) (v v' : Visit),
      (∀ c ∈ cs, c ∈ U) → unmarkedCount U v < fuel → v.grayFresh →
      blackClosed adj v → blackAcyclic adj v →
      detectCycleLoop adj fuel node cs v = (v', none) →
      (∀ c ∈ cs, c ∈ v'.black) ∧ (∀ x ∈ v.black, x ∈ v'.black) ∧ v'.grayFresh ∧
      blackClosed adj v' ∧ blackAcyclic adj v' ∧
      unmarkedCount U v' ≤ unmarkedCount U v := by
  intro cs
  induction cs with
  | nil =>
    intro v v' _ _ hGF hBC hNC h
    simp only [detectCycleLoop] at h
    injection h with h1 _
    subst h1
    exact ⟨fun c hc => absurd hc (List.not_mem_nil c), fun x hx => hx, hGF, hBC,
      hNC, le_refl _⟩
  | cons c rest ih =>
    intro v v' hcs hfuel hGF hBC hNC h
    simp only [detectCycleLoop] at h
    split at h
    · split at h <;> simp at h
    · next v1 heq =>
      obtain ⟨hcB, hblk1, hGF1, hBC1, hNC1, hcnt1⟩ :=
        hP c v v1 (hcs c (List.mem_cons_self _ _)) hfuel hGF hBC hNC heq
      obtain ⟨hall, hblk2, hGF2, hBC2, hNC2, hcnt2⟩ :=
        ih v1 v' (fun d hd => hcs d (List.mem_cons_of_mem _ hd))
          (lt_of_le_of_lt hcnt1 hfuel) hGF1 hBC1 hNC1 h
      refine ⟨?_, fun x hx => hblk2 x (hblk1 x hx), hGF2, hBC2, hNC2,
        le_trans hcnt2 hcnt1⟩
      intro d hd
      rcases List.mem_cons.mp hd with rfl | hd'
      · exact hblk2 d hcB
      · exact hall d hd'

theorem detectCycle_none_complete (adj : String → List String)
    (U : Finset String) (hadjU : ∀ x ∈ U, ∀ c ∈ adj x, c ∈ U) :
    ∀ (fuel : Nat) (n : String) (v v' : Visit),
      n ∈ U → unmarkedCount U v < fuel → v.grayFresh → blackClosed adj v →
      blackAcyclic adj v → detectCycle adj fuel n v = (v', none) →
      n ∈ v'.black ∧ (∀ x ∈ v.black, x ∈ v'.black) ∧ v'.grayFresh ∧
      blackClosed adj v' ∧ blackAcyclic adj v' ∧
      unmarkedCount U v' ≤ unmarkedCount U v := by
  intro fuel
  induction fuel with
  | zero =>
    intro n v v' _ hfuel _ _ _ _
    exact absurd hfuel (Nat.not_lt_zero _)
  | succ f ih =>
    intro n v v' hnU hfuel hGF hBC hNC h
    simp only [detectCycle] at h
    split at h
    · simp at h
    · next hngray =>
      split at h
      · next hnblack =>
        injection h with h1 _
        subst h1
        exact ⟨hnblack, fun x hx => hx, hGF, hBC, hNC, le_refl _⟩
      · next hnblack =>
        split at h
        · simp at h
        · next v2 heq =>
          injection h with h1 _
          have hGF1 : Visit.grayFresh { v with gray := n :: v.gray } := by
            intro x hx
            rcases List.mem_cons.mp hx with rfl | hx'
            · exact hnblack
            · exact hGF x hx'
          have hcnt1 : unmarkedCount U { v with gray := n :: v.gray } <
              unmarkedCount U v := unmarkedCount_push U v n hnU hngray hnblack
          obtain ⟨hall, hblk2, hGF2, hBC2, hNC2, hcnt2⟩ :=
            detectCycleLoop_none_complete adj U f n ih (adj n) _ v2
              (fun c hc => hadjU n hnU c hc) (by omega) hGF1 hBC hNC heq
          have hgray2 : v2.gray = n :: v.gray :=
            detectCycleLoop_none_gray adj f n (detectCycle_none_gray adj f)
              (adj n) _ _ heq
          subst h1
          have hblkv : ∀ x ∈ v.black, x ∈ n :: v2.black := by
            intro x hx
            exact List.mem_cons_of_mem _ (hblk2 x hx)
          refine ⟨List.mem_cons_self _ _, hblkv, ?_, ?_, ?_, ?_⟩
          · intro x hx
            have hxg : x ∈ v.gray := by
              have : x ∈ v2.gray.erase n := hx
              rw [hgray2, List.erase_cons_head] at this
              exact this
            have hxne : x ≠ n := fun he => hngray (he ▸ hxg)
            intro hxb
            rcases List.mem_cons.mp hxb with he | hxb'
            · exact hxne he
            · exact hGF2 x (by rw [hgray2]; exact List.mem_cons_of_mem _ hxg) hxb'
          · intro m hm c hc
            rcases List.mem_cons.mp hm with rfl | hm'
            · exact List.mem_cons_of_mem _ (hall c hc)
            · exact List.mem_cons_of_mem _ (hBC2 m hm' c hc)
          · intro m hm
            rcases List.mem_cons.mp hm with rfl | hm'
            · intro hcyc
              obtain ⟨c, hmc, hcm⟩ := Relation.TransGen.head'_iff.mp hcyc
              have hcB : c ∈ v2.black := hall c hmc
              have hmB : m ∈ v2.black := black_reach adj v2 hBC2 hcm hcB
              exact hGF2 m (by rw [hgray2]; exact List.mem_cons_self _ _) hmB
            · exact hNC2 m hm'
          · refine le_trans (unmarkedCount_mono U v _ ?_) (le_refl _)
            intro x hx
            rcases hx with hg | hb
            · refine Or.inl ?_
              show x ∈ v2.gray.erase n
              rw [hgray2, List.erase_cons_head]
              exact hg
            · exact Or.inr (List.mem_cons_of_mem _ (hblk2 x hb))

end Core

namespace Core

theorem mem_adjOf (tb : Builder) (a b : String) :
    b ∈ tb.adjOf a ↔ edgeRel tb a b := by
  simp only [Builder.adjOf, List.mem_map, List.mem_filter, beq_iff_eq, edgeRel]
  constructor
  · rintro ⟨e, ⟨he, hf⟩, ht⟩
    exact ⟨e, he, hf, ht⟩
  · rintro ⟨e, he, hf, ht⟩
    exact ⟨e, ⟨he, hf⟩, ht⟩

theorem chain_getLast_reflTransGen {r : String → String → Prop} :
    ∀ (l : List String) (a b : String), List.Chain r a l →
      (a :: l).getLast? = some b → Relation.ReflTransGen r a b := by
  intro l
  induction l with
  | nil =>
    intro a b _ hl
    rw [List.getLast?_singleton, Option.some.injEq] at hl
    subst hl
    exact Relation.ReflTransGen.refl
  | cons c l' ih =>
    intro a b hch hl
    cases hch with
    | cons hac hch' =>
      rw [List.getLast?_cons_cons] at hl
      exact Relation.ReflTransGen.head hac (ih c b hch' hl)

theorem closed_chain_cycle {r : String → String → Prop} (p : List String)
    (hne : p ≠ []) (hlen : 1 < p.length) (hcl : p.head? = p.getLast?)
    (hch : List.Chain' r p) : ∃ m, Relation.TransGen r m m := by
  rcases p with _ | ⟨a, l⟩
  · exact absurd rfl hne
  rcases l with _ | ⟨c, l'⟩
  · simp at hlen
  have hch' : List.Chain r a (c :: l') := hch
  cases hch' with
  | cons hac hcl' =>
    have hlast : (a :: c :: l').getLast? = some a := by
      rw [← hcl]
      rfl
    rw [List.getLast?_cons_cons] at hlast
    have hca : Relation.ReflTransGen r c a :=
      chain_getLast_reflTransGen l' c a hcl' hlast
    exact ⟨a, Relation.TransGen.head' hac hca⟩

theorem hasCycleLoop_some_sound (adj : String → List String) (fuel : Nat) :
    ∀ (ss : List String) (v : Visit) (path : List String),
      v.gray = [] → hasCycleLoop adj fuel ss v = some path →
      path ≠ [] ∧ 1 < path.length ∧ path.head? = path.getLast? ∧
      List.Chain' (fun a b => b ∈ adj a) path := by
  intro ss
  induction ss with
  | nil =>
    intro v path _ h
    simp only [hasCycleLoop] at h
    simp at h
  | cons s rest ih =>
    intro v path hg h
    simp only [hasCycleLoop] at h
    split at h
    · next v1 p heq =>
      injection h with h2
      subst h2
      obtain ⟨hne, hch, hsh⟩ := detectCycle_some_shape adj fuel s v v1 p heq
      rcases hsh with ⟨hlen, hcl⟩ | ⟨-, g, hgg, -⟩
      · refine ⟨by simpa using hne, by simpa using hlen, ?_, hch⟩
        rw [List.head?_reverse, List.getLast?_reverse]
        exact hcl.symm
      · rw [hg] at hgg
        exact absurd hgg (List.not_mem_nil g)
    · next v1 heq =>
      have hg1 : v1.gray = v.gray := detectCycle_none_gray adj fuel s v v1 heq
      exact ih v1 path (hg1.trans hg) h

theorem hasCycleLoop_none_complete (adj : String → List String)
    (U : Finset String) (hadjU : ∀ x ∈ U, ∀ c ∈ adj x, c ∈ U) (fuel : Nat) :
    ∀ (ss : List String) (v : Visit),
      (∀ s ∈ ss, s ∈ U) → unmarkedCount U v < fuel → v.grayFresh →
      blackClosed adj v → blackAcyclic adj v →
      hasCycleLoop adj fuel ss v = none →
      ∀ t ∈ ss, ∀ m, Relation.ReflTransGen (fun a b => b ∈ adj a) t m →
        ¬ Relation.TransGen (fun a b => b ∈ adj a) m m := by
  intro ss
  induction ss with
  | nil =>
    intro v _ _ _ _ _ _ t ht
    exact absurd ht (List.not_mem_nil t)
  | cons s rest ih =>
    intro v hss hfuel hGF hBC hNC h t ht m hm
    simp only [hasCycleLoop] at h
    split at h
    · simp at h
    · next v1 heq =>
      obtain ⟨hsB, hblk, hGF1, hBC1, hNC1, hcnt⟩ :=
        detectCycle_none_complete adj U hadjU fuel s v v1
          (hss s (List.mem_cons_self _ _)) hfuel hGF hBC hNC heq
      rcases List.mem_cons.mp ht with rfl | ht'
      · have hmB : m ∈ v1.black := black_reach adj v1 hBC1 hm hsB
        exact hNC1 m hmB
      · exact ih v1 (fun x hx => hss x (List.mem_cons_of_mem _ hx))
          (lt_of_le_of_lt hcnt hfuel) hGF1 hBC1 hNC1 h t ht' m hm

end Core

namespace Core

theorem no_reachable_cycle_of_loop_none (tb : Builder)
    (h : hasCycleLoop tb.adjOf (tb.nodeUniverse.length + 1) tb.sources
      ⟨[], []⟩ = none) :
    ∀ s ∈ tb.sources, ∀ m, Relation.ReflTransGen (edgeRel tb) s m →
      ¬ Relation.TransGen (edgeRel tb) m m := by
  intro s hs m hsm hmm
  have hadjU : ∀ x ∈ tb.nodeUniverse.toFinset, ∀ c ∈ tb.adjOf x,
      c ∈ tb.nodeUniverse.toFinset := by
    intro x _ c hc
    obtain ⟨e, he, _, ht⟩ := (mem_adjOf tb x c).mp hc
    rw [List.mem_toFinset]
    exact List.mem_append.mpr (Or.inr (List.mem_map.mpr ⟨e, he, ht⟩))
  have hsU : ∀ x ∈ tb.sources, x ∈ tb.nodeUniverse.toFinset := by
    intro x hx
    rw [List.mem_toFinset]
    exact List.mem_append.mpr (Or.inl (List.mem_append.mpr (Or.inl hx)))
  have hcnt : unmarkedCount tb.nodeUniverse.toFinset (⟨[], []⟩ : Visit) <
      tb.nodeUniverse.length + 1 := by
    have h1 : unmarkedCount tb.nodeUniverse.toFinset ⟨[], []⟩ ≤
        tb.nodeUniverse.toFinset.card := Finset.card_filter_le _ _
    have h2 : tb.nodeUniverse.toFinset.card ≤ tb.nodeUniverse.length :=
      tb.nodeUniverse.toFinset_card_le
    omega
  have hGF : Visit.grayFresh ⟨[], []⟩ := fun x hx => absurd hx (List.not_mem_nil x)
  have hBC : blackClosed tb.adjOf ⟨[], []⟩ :=
    fun m hm => absurd hm (List.not_mem_nil m)
  have hNC : blackAcyclic tb.adjOf ⟨[], []⟩ :=
    fun m hm => absurd hm (List.not_mem_nil m)
  exact hasCycleLoop_none_complete tb.adjOf tb.nodeUniverse.toFinset hadjU _
    tb.sources ⟨[], []⟩ hsU hcnt hGF hBC hNC h s hs m
    (Relation.ReflTransGen.mono (fun a b hab => (mem_adjOf tb a b).mpr hab) hsm)
    (Relation.TransGen.mono (fun a b hab => (mem_adjOf tb a b).mpr hab) hmm)

end Core
/-- C2 (amended): the claim promises a cycle-detected error for every builder
whose edge set contains a cycle, but the DFS of `hasCycle` only starts from
the sources, so only cycles reachable from at least one source are found.
Amended statement, for an unfrozen builder with at least one source: (1) if a
cycle is reachable from some source, `Build` fails with `cycleDetected` and
the reported path is non-empty, closed (equal first and last elements), of
length greater than one, and every consecutive pair of its elements is an
edge of the builder; (2) if the edge relation admits no cycle at all, `Build`
succeeds. -/
theorem cycle_detection_amended (tb : Core.Builder)
    (hflag : tb.builtFlag = false) (hsrc : tb.sources ≠ []) :
    ((∃ s ∈ tb.sources, ∃ m, Relation.ReflTransGen (Core.edgeRel tb) s m ∧
        Relation.TransGen (Core.edgeRel tb) m m) →
      ∃ path, tb.Build = .error (.cycleDetected path) ∧ path ≠ [] ∧
        path.head? = path.getLast? ∧ 1 < path.length ∧
        List.Chain' (Core.edgeRel tb) path) ∧
    ((¬ ∃ m, Relation.TransGen (Core.edgeRel tb) m m) →
      ∃ tb', tb.Build = .ok tb') := by
  constructor
  · rintro ⟨s, hs, m, hsm, hmm⟩
    rcases hr : Core.hasCycleLoop tb.adjOf (tb.nodeUniverse.length + 1)
        tb.sources ⟨[], []⟩ with _ | q
    · exact absurd hmm (Core.no_reachable_cycle_of_loop_none tb hr s hs m hsm)
    · obtain ⟨hne, hlen, hcl, hch⟩ :=
        Core.hasCycleLoop_some_sound tb.adjOf _ tb.sources ⟨[], []⟩ q rfl hr
      refine ⟨q, ?_, hne, hcl, hlen, ?_⟩
      · have hH : tb.hasCycle = (true, q) := by
          unfold Core.Builder.hasCycle
          rw [hr]
        unfold Core.Builder.Build
        rw [if_neg (by simp [hflag]),
          if_neg (by rw [List.length_eq_zero]; exact hsrc), hH]
      · exact List.Chain'.imp (fun a b hab => (Core.mem_adjOf tb a b).mp hab) hch
  · intro hnc
    rcases hr : Core.hasCycleLoop tb.adjOf (tb.nodeUniverse.length + 1)
        tb.sources ⟨[], []⟩ with _ | q
    · refine ⟨{ tb with builtFlag := true }, ?_⟩
      have hH : tb.hasCycle = (false, []) := by
        unfold Core.Builder.hasCycle
        rw [hr]
      unfold Core.Builder.Build
      rw [if_neg (by simp [hflag]),
        if_neg (by rw [List.length_eq_zero]; exact hsrc), hH]
    · exfalso
      obtain ⟨hne, hlen, hcl, hch⟩ :=
        Core.hasCycleLoop_some_sound tb.adjOf _ tb.sources ⟨[], []⟩ q rfl hr
      obtain ⟨m, hm⟩ := Core.closed_chain_cycle q hne hlen hcl hch
      exact hnc ⟨m, Relation.TransGen.mono
        (fun a b hab => (Core.mem_adjOf tb a b).mp hab) hm⟩

/-- Counterexample to the literal C2 claim: `hiddenCycleBuilder` has the
cycle `a -> b -> a` in its edge set, yet `Build` succeeds, because neither
`a` nor `b` is reachable from the only source `s` and the DFS starts only
from the sources. -/
theorem unreachable_cycle_not_detected :
    (∃ m, Relation.TransGen (Core.edgeRel hiddenCycleBuilder) m m) ∧
    hiddenCycleBuilder.Build =
      .ok { hiddenCycleBuilder with builtFlag := true } := by
  constructor
  · have hab : Core.edgeRel hiddenCycleBuilder "a" "b" :=
      ⟨⟨"a", "b", "*"⟩, List.mem_cons_self _ _, rfl, rfl⟩
    have hba : Core.edgeRel hiddenCycleBuilder "b" "a" :=
      ⟨⟨"b", "a", "*"⟩, List.mem_cons_of_mem _ (List.mem_cons_self _ _), rfl, rfl⟩
    exact ⟨"a", Relation.TransGen.head hab (Relation.TransGen.single hba)⟩
  · simp [hiddenCycleBuilder, Core.Builder.Build, Core.Builder.hasCycle,
      Core.hasCycleLoop, Core.detectCycle, Core.detectCycleLoop,
      Core.Builder.adjOf, Core.Builder.nodeUniverse]

/-- The amended C2 theorem applied to `reachableCycleBuilder`, whose cycle
`a -> b -> a` is reachable from the source `s`. -/
theorem cycle_detection_amended_witness :
    reachableCycleBuilder.builtFlag = false ∧
    reachableCycleBuilder.sources ≠ [] ∧
    (∃ path, reachableCycleBuilder.Build = .error (.cycleDetected path) ∧
      path ≠ [] ∧ path.head? = path.getLast? ∧ 1 < path.length ∧
      List.Chain' (Core.edgeRel reachableCycleBuilder) path) := by
  refine ⟨rfl, by decide, ?_⟩
  refine (cycle_detection_amended reachableCycleBuilder rfl (by decide)).1 ?_
  have hsa : Core.edgeRel reachableCycleBuilder "s" "a" :=
    ⟨⟨"s", "a", "*"⟩, List.mem_cons_self _ _, rfl, rfl⟩
  have hab : Core.edgeRel reachableCycleBuilder "a" "b" :=
    ⟨⟨"a", "b", "*"⟩, List.mem_cons_of_mem _ (List.mem_cons_self _ _), rfl, rfl⟩
  have hba : Core.edgeRel reachableCycleBuilder "b" "a" :=
    ⟨⟨"b", "a", "*"⟩, List.mem_cons_of_mem _
      (List.mem_cons_of_mem _ (List.mem_cons_self _ _)), rfl, rfl⟩
  exact ⟨"s", List.mem_cons_self _ _, "a",
    Relation.ReflTransGen.single hsa,
    Relation.TransGen.head hab (Relation.TransGen.single hba)⟩
